import Mathlib

/-!
Verification of the watched-literal SAT solver of shedivesin/sat.

The definitions below are a shallow embedding of the JavaScript sources:

* `src/sat.mjs` (lines 22-138): the watched-literal solver `solve` with its
  literal codec (`to_dimacs`, and the encoding expression
  `((Math.abs(literal) - 1) << 1) | (literal >>> 31)`), input validation,
  flat formula store (`literals`/`start`), watch chains (`watch`/`next`),
  decision stack (`move`), and the B1-B6 backtracking state machine.
* `src/watched_literal_flat.mjs` and `src/fast_sat.mjs`: their input
  validation loops (which carry an upper range check absent from sat.mjs).
* `src/sat.mjs` (lines 1038-1063): the binomial cardinality encoder
  (`combinations`, `at_most`).

JavaScript `Uint32Array` state is modelled by `List Nat` with `List.getD`
reads and `List.set` writes (an out-of-range `List.set` is a no-op, exactly
like an out-of-range typed-array store).  All values kept in those arrays
(literal codes `< 2n`, clause indices `≤ m`, move codes `< 4`) are small,
so `Nat` arithmetic agrees with the JS unsigned arithmetic on the valid
inputs this development considers.  Loops whose bound is not structural are
given an explicit fuel argument; the termination theorem shows a concrete
fuel that always suffices.
-/

namespace SatMjs

/-- Literal encoding, from `sat.mjs` line 74:
`literals[k] = ((Math.abs(literal) - 1) << 1) | (literal >>> 31)`.
For a nonzero literal of magnitude below 2^31, `literal >>> 31` is 1 for a
negative literal and 0 for a positive one, and the `|` with the low bit is
a plain addition. -/
def encodeLit (L : Int) : Nat :=
  2 * (L.natAbs - 1) + (if L < 0 then 1 else 0)

/-- The decoding used by the result mapper (`to_dimacs`, sat.mjs lines 22-30):
literal code `c` denotes the signed DIMACS literal
`(1 - 2*(c & 1)) * ((c >> 1) + 1)`. -/
def decodeLit (c : Nat) : Int :=
  (1 - 2 * ((c % 2 : Nat) : Int)) * (((c / 2 : Nat) : Int) + 1)

/-- `to_dimacs` (sat.mjs lines 22-30): entry `i` of the result is
`(i + 1) * (1 - ((move[i] & 1) << 1))`. -/
def to_dimacs (move : List Nat) : List Int :=
  (List.range move.length).map fun i =>
    (((i + 1 : Nat) : Int)) * (1 - 2 * (((move.getD i 0 % 2 : Nat)) : Int))

/-! ### Input validation

`sat.mjs` lines 33-57.  The embedding types the input as `List (List Int)`,
so the `Array.isArray` / `Number.isInteger` checks cannot fail and only the
range checks remain.  The scan returns `.error` for a thrown `RangeError`,
`.ok none` for the immediate `null` (UNSAT) on an empty clause, and
`.ok (some (n, p))` with the variable count and total literal count. -/

/-- Per-clause part of the validation loop of `sat.mjs` (lines 48-56):
each literal must satisfy `Math.abs(literal) >= 1`; the running maximum
`n` is updated.  There is no upper range check in this file. -/
def scanClause (n : Nat) : List Int → Except String Nat
  | [] => .ok n
  | L :: rest =>
    if 1 ≤ L.natAbs then scanClause (max n L.natAbs) rest
    else .error "Invalid variable"

/-- The validation loop of `sat.mjs` (lines 36-57): clause by clause, an
empty clause returns `null` immediately; otherwise the literals are
checked and `n`, `p` accumulated. -/
def scanFormula : List (List Int) → Nat → Nat → Except String (Option (Nat × Nat))
  | [], n, p => .ok (some (n, p))
  | c :: rest, n, p =>
    if c.length < 1 then .ok none
    else
      match scanClause n c with
      | .error e => .error e
      | .ok n2 => scanFormula rest n2 (p + c.length)

/-- Per-clause validation of `watched_literal_flat.mjs` (lines 17-26):
after `variable >= 1` it additionally requires `variable < 2147483649`
(that bound is 2^31 + 1). -/
def scanClauseFlat (n : Nat) : List Int → Except String Nat
  | [] => .ok n
  | L :: rest =>
    if 1 ≤ L.natAbs then
      if L.natAbs < 2147483649 then scanClauseFlat (max n L.natAbs) rest
      else .error "Too many variables"
    else .error "Invalid variable"

/-- The validation loop of `watched_literal_flat.mjs` (lines 5-27). -/
def scanFormulaFlat : List (List Int) → Nat → Nat → Except String (Option (Nat × Nat))
  | [], n, p => .ok (some (n, p))
  | c :: rest, n, p =>
    if c.length < 1 then .ok none
    else
      match scanClauseFlat n c with
      | .error e => .error e
      | .ok n2 => scanFormulaFlat rest n2 (p + c.length)

/-- Per-clause validation of `fast_sat.mjs` (lines 63-70): a single check
`v >= 1 && v < 2147483649` (again 2^31 + 1). -/
def scanClauseFast (n : Nat) : List Int → Except String Nat
  | [] => .ok n
  | L :: rest =>
    if 1 ≤ L.natAbs ∧ L.natAbs < 2147483649 then scanClauseFast (max n L.natAbs) rest
    else .error "Invalid variable"

/-- The validation loop of `fast_sat.mjs` (lines 55-71); an empty clause
returns the UNSAT marker (an empty solution list) at once. -/
def scanFormulaFast : List (List Int) → Nat → Except String (Option Nat)
  | [], n => .ok (some n)
  | c :: rest, n =>
    if c.length = 0 then .ok none
    else
      match scanClauseFast n c with
      | .error e => .error e
      | .ok n2 => scanFormulaFast rest n2

/-! ### Formula store construction (sat.mjs lines 59-85) -/

/-- The fill loop of sat.mjs lines 67-78: `literals` is the concatenation
of the encoded clauses and `start[i]` the running offset, with
`start[m] = p` appended. -/
def buildRows : List (List Int) → Nat → List Nat × List Nat
  | [], k => ([], [k])
  | c :: rest, k =>
    let r := buildRows rest (k + c.length)
    (c.map encodeLit ++ r.1, k :: r.2)

/-- The encoded first literal of clause `i`, `formula[i][0]` as a code
(sat.mjs lines 81-82). -/
def firstCode (F : List (List Int)) (i : Nat) : Nat :=
  encodeLit ((F.getD i []).headD 0)

/-- The initial watch threading loop of sat.mjs lines 80-85: for
`i = m-1` down to `0`, `next[i] = watch[j]; watch[j] = i` where `j` is the
code of clause `i`'s first literal.  `threadLoop F (i+1) wn` performs the
iteration for index `i` and then recurses downwards. -/
def threadLoop (F : List (List Int)) : Nat → List Nat × List Nat → List Nat × List Nat
  | 0, wn => wn
  | i+1, wn =>
    let c := firstCode F i
    threadLoop F i (wn.1.set c i, wn.2.set i (wn.1.getD c 0))

/-! ### The search state machine (sat.mjs lines 87-134)

The labelled loops of the source are re-expressed as a two-state machine:
`b2 d` is the top of the depth loop (step B2), and `b3 d l j` is the head
of the `b3:` chain scan with current decision literal `l` and chain cursor
`j`.  One `step` is one B2 decision, or one iteration of the `b3:` loop
(which, in the no-replacement case, includes the inline B6 backtrack and
B5 retry exactly as in the source). -/

structure St where
  formula : List (List Int)
  literals : List Nat
  start : List Nat
  watch : List Nat
  next : List Nat
  move : List Nat

inductive PC where
  | b2 (d : Nat)
  | b3 (d l j : Nat)

inductive Res where
  | sat (a : List Int)
  | unsat

/-- The phase heuristic of sat.mjs line 90:
`move[d] = (watch[d << 1] >= m) | (watch[(d << 1) | 1] < m)`,
a single bit. -/
def phase (watch : List Nat) (m d : Nat) : Nat :=
  if m ≤ watch.getD (2 * d) 0 ∨ watch.getD (2 * d + 1) 0 < m then 1 else 0

/-- The inner replacement scan of sat.mjs lines 101-113: slots
`k = i+1, ..., i_p - 1` are searched for the first literal that is not
false at depth `d`, i.e. `(l_p >> 1) > d || ((l_p + move[l_p >> 1]) & 1) === 0`.
The countdown argument is the number of slots left (`i_p - k`). -/
def scanRepl (lits mv : List Nat) (d : Nat) : Nat → Nat → Option Nat
  | 0, _ => none
  | r+1, k =>
    let lp := lits.getD k 0
    if d < lp / 2 ∨ (lp + mv.getD (lp / 2) 0) % 2 = 0 then some k
    else scanRepl lits mv d r (k + 1)

/-- The B6 backtrack loop of sat.mjs lines 119-123:
`while (move[d] >= 2) { if (d < 1) return null; d--; }`.
Returns `none` for the UNSAT return and otherwise the new depth. -/
def backjump (mv : List Nat) : Nat → Option Nat
  | 0 => if 2 ≤ mv.getD 0 0 then none else some 0
  | d+1 => if 2 ≤ mv.getD (d + 1) 0 then backjump mv d else some (d + 1)

/-- One transition of the search state machine (sat.mjs lines 89-134).
`.inl` is an internal step, `.inr` a return (with the final state). -/
def step (m n : Nat) (s : St) : PC → (St × PC) ⊕ (Res × St)
  | .b2 d =>
    if d < n then
      -- B2 choose: move[d] := phase bit; l := (d << 1) | move[d]; enter B3.
      let mv := phase s.watch m d
      let l := 2 * d + mv
      let s2 := { s with move := s.move.set d mv }
      .inl (s2, .b3 d l (s2.watch.getD (l ^^^ 1) 0))
    else
      -- B2 rejoice: d = n, return the mapped assignment.
      .inr (.sat (to_dimacs s.move), s)
  | .b3 d l j =>
    if j < m then
      let i := s.start.getD j 0
      let iP := s.start.getD (j + 1) 0
      let jP := s.next.getD j 0
      match scanRepl s.literals s.move d (iP - (i + 1)) (i + 1) with
      | some k =>
        -- Replacement found: swap it into the watched slot and splice the
        -- clause onto the new literal's chain (sat.mjs lines 105-111).
        let lp := s.literals.getD k 0
        .inl ({ s with
                literals := (s.literals.set i lp).set k (l ^^^ 1),
                next := s.next.set j (s.watch.getD lp 0),
                watch := s.watch.set lp j },
              .b3 d l jP)
      | none =>
        -- Can't stop watching ¬l: restore the chain head, then B6/B5
        -- (sat.mjs lines 115-129).
        let s1 := { s with watch := s.watch.set (l ^^^ 1) j }
        match backjump s1.move d with
        | none => .inr (.unsat, s1)
        | some e =>
          let mv2 := s1.move.getD e 0 ^^^ 3
          let s2 := { s1 with move := s1.move.set e mv2 }
          let l2 := 2 * e + mv2 % 2
          .inl (s2, .b3 e l2 (s2.watch.getD (l2 ^^^ 1) 0))
    else
      -- B4 advance: watch[l ^ 1] := m; next depth (sat.mjs lines 132-133).
      .inl ({ s with watch := s.watch.set (l ^^^ 1) m }, .b2 (d + 1))

/-- Run the state machine with fuel.  `none` means the fuel ran out (shown
impossible for the fuel `searchFuel` below). -/
def run (m n : Nat) : Nat → St → PC → Option (Res × St)
  | 0, _, _ => none
  | fuel+1, s, pc =>
    match step m n s pc with
    | .inl sp => run m n fuel sp.1 sp.2
    | .inr r => some r

/-- Iterated stepping from the initial program point, for stating
reachability of intermediate states. -/
def stepIter (m n : Nat) (s0 : St) : Nat → (St × PC) ⊕ (Res × St)
  | 0 => .inl (s0, .b2 0)
  | k+1 =>
    match stepIter m n s0 k with
    | .inl sp => step m n sp.1 sp.2
    | .inr r => .inr r

/-- Per-drain step bound: a chain holds at most `m` clauses, and one more
step exits the drain. -/
def Cst (m : Nat) : Nat := m + 2

/-- Fuel for a fresh subtree with `k` unassigned variables: one B2 step,
then for each phase a drain (`Cst m` steps) and a subtree. -/
def Bc (m : Nat) : Nat → Nat
  | 0 => 1
  | k+1 => 1 + 2 * Cst m + 2 * Bc m k

/-- Fuel that provably suffices for the whole search. -/
def searchFuel (m n : Nat) : Nat := Bc m n + 1

/-- The state after allocation, population and watch threading
(sat.mjs lines 59-85): `watch` and `next` are filled with the sentinel `m`
and then threaded in reverse clause order; `move` is zero (fresh
`Uint32Array`). -/
def initSt (F : List (List Int)) (n : Nat) : St :=
  let m := F.length
  let rows := buildRows F 0
  let wn := threadLoop F m (List.replicate (2 * n) m, List.replicate m m)
  ⟨F, rows.1, rows.2, wn.1, wn.2, List.replicate n 0⟩

/-- The whole of `solve` (sat.mjs lines 32-138) with the default
`to_dimacs` mapper: validate, build, search, map the result.
`.ok none` is the `null` (UNSAT) return; `.error` a thrown validation
error.  The `"fuel"` branch is unreachable (see the termination theorem). -/
def solve (F : List (List Int)) : Except String (Option (List Int)) :=
  match scanFormula F 0 0 with
  | .error e => .error e
  | .ok none => .ok none
  | .ok (some (n, _)) =>
    match run F.length n (searchFuel F.length n) (initSt F n) (.b2 0) with
    | some (.sat a, _) => .ok (some a)
    | some (.unsat, _) => .ok none
    | none => .error "fuel"

/-! ### Semantic notions (for the specification statements) -/

/-- Clause `i`'s literal window starts here: the sum of the lengths of the
preceding clauses. -/
def startF (F : List (List Int)) (i : Nat) : Nat :=
  ((F.take i).map List.length).sum

/-- Length of clause `i`. -/
def clen (F : List (List Int)) (i : Nat) : Nat := (F.getD i []).length

/-- Clause `i` as internal codes. -/
def EC (F : List (List Int)) (i : Nat) : List Nat := (F.getD i []).map encodeLit

/-- The values of `len` consecutive slots of `lits` from `a`. -/
def window (lits : List Nat) (a len : Nat) : List Nat :=
  (List.range' a len).map fun k => lits.getD k 0

/-- The watched (first) literal of clause `i`: `literals[start[i]]`. -/
def firstLit (s : St) (i : Nat) : Nat :=
  s.literals.getD (s.start.getD i 0) 0

/-- Literal code `c` is not false when `dd` variables are assigned:
its variable is still unassigned, or the chosen phase agrees with it.
(`(c + move[c >> 1]) & 1 === 0` in the source.) -/
def NF (mv : List Nat) (dd c : Nat) : Prop :=
  dd ≤ c / 2 ∨ (c + mv.getD (c / 2) 0) % 2 = 0

/-- Variable `v` (0-based; DIMACS variable `v+1`) occurs nowhere in `F`. -/
def FreeVar (F : List (List Int)) (v : Nat) : Prop :=
  ∀ c ∈ F, ∀ L ∈ c, L.natAbs ≠ v + 1

/-- Literal `L` is true under the returned DIMACS-style assignment `A`. -/
def litHolds (A : List Int) (L : Int) : Prop :=
  A.getD (L.natAbs - 1) 0 = L

/-- A valid CNF input in the sense of the specification: non-empty clauses
of nonzero literals whose magnitude is below 2^31. -/
def Valid (F : List (List Int)) : Prop :=
  ∀ c ∈ F, c ≠ [] ∧ ∀ L ∈ c, L ≠ 0 ∧ L.natAbs < 2 ^ 31

/-- Total assignment `τ` (variable `v+1` is true iff `τ v`) satisfies `L`. -/
def satLit (τ : Nat → Bool) (L : Int) : Prop :=
  τ (L.natAbs - 1) = decide (0 < L)

/-- `τ` satisfies every clause of `F`. -/
def satF (F : List (List Int)) (τ : Nat → Bool) : Prop :=
  ∀ c ∈ F, ∃ L ∈ c, satLit τ L

/-- `τ` agrees with the phases recorded in `move` on the first `dd`
variables. -/
def Follows (τ : Nat → Bool) (mv : List Nat) (dd : Nat) : Prop :=
  ∀ v < dd, τ v = decide (mv.getD v 0 % 2 = 0)

/-- The completeness ghost invariant: every already-retried level `i`
records that no satisfying assignment follows the first `i` phases and
then the level's first-tried (now abandoned) phase. -/
def CInv (F : List (List Int)) (mv : List Nat) (dd : Nat) : Prop :=
  ∀ i < dd, 2 ≤ mv.getD i 0 →
    ¬ ∃ τ, Follows τ mv i ∧ τ i = decide ((mv.getD i 0 + 1) % 2 = 0) ∧ satF F τ

/-- `cs` is the list of clause indices on the chain headed `h`, following
`next` until the sentinel `m`. -/
inductive IsChain (nx : List Nat) (m : Nat) : Nat → List Nat → Prop
  | nil : IsChain nx m m []
  | cons {j cs} : j < m → IsChain nx m (nx.getD j 0) cs → IsChain nx m j (j :: cs)

/-- Number of assigned variables at a program point: at `b2 d` the first
`d` variables are assigned, at `b3 d _ _` also variable `d`. -/
def assigned : PC → Nat
  | .b2 d => d
  | .b3 d _ _ => d + 1

/-- Head of literal `c`'s watch chain at a program point.  During a B3
drain the head of the drained chain `l ^^^ 1` is the cursor `j` (the entry
`watch[l ^^^ 1]` is stale until the drain writes it back). -/
def headOf (s : St) : PC → Nat → Nat
  | .b2 _ => fun c => s.watch.getD c 0
  | .b3 _ l j => fun c => if c = l ^^^ 1 then j else s.watch.getD c 0

/-- The literal currently being drained, if any. -/
def exemptOf : PC → Option Nat
  | .b2 _ => none
  | .b3 _ l _ => some (l ^^^ 1)

/-- Facts about the formula delivered by a successful validation scan. -/
structure FOK (F : List (List Int)) (m n p : Nat) : Prop where
  m_eq : m = F.length
  nonempty : ∀ c ∈ F, c ≠ []
  nz : ∀ c ∈ F, ∀ L ∈ c, L ≠ 0
  vbound : ∀ c ∈ F, ∀ L ∈ c, L.natAbs ≤ n
  p_eq : p = (F.map List.length).sum

/-- The full search invariant, relative to a family `ch` of watch chains
(one list of clause indices per literal code). -/
structure Inv (F : List (List Int)) (m n p : Nat) (s : St) (pc : PC)
    (ch : Nat → List Nat) : Prop where
  frame : s.formula = F
  lits_len : s.literals.length = p
  start_len : s.start.length = m + 1
  start_eq : ∀ i ≤ m, s.start.getD i 0 = startF F i
  watch_len : s.watch.length = 2 * n
  next_len : s.next.length = m
  move_len : s.move.length = n
  wperm : ∀ i < m, (window s.literals (startF F i) (clen F i)).Perm (EC F i)
  move_lt : ∀ v, s.move.getD v 0 < 4
  chain : ∀ c < 2 * n, IsChain s.next m (headOf s pc c) (ch c)
  chEmpty : ∀ c, ¬ c < 2 * n → ch c = []
  nodup : ∀ c, (ch c).Nodup
  disj : ∀ c1 c2, c1 ≠ c2 → ∀ j, j ∈ ch c1 → j ∉ ch c2
  cover : ∀ j < m, ∃ c, c < 2 * n ∧ j ∈ ch c
  watches : ∀ c, ∀ j ∈ ch c, j < m ∧ firstLit s j = c
  d_le : assigned pc ≤ n
  pc_ok : ∀ d l j, pc = .b3 d l j → d < n ∧ l = 2 * d + s.move.getD d 0 % 2
  nf : ∀ c, c < 2 * n → exemptOf pc ≠ some c → ch c ≠ [] → NF s.move (assigned pc) c
  cinv : CInv F s.move (assigned pc)
  gfree : ∀ v < assigned pc, FreeVar F v → s.move.getD v 0 = 1 ∨ s.move.getD v 0 = 2

/-! ### The binomial cardinality encoder (sat.mjs lines 1038-1071)

`combinations(k, array, sign)` enumerates the `k`-element index
combinations of `[0, n)` in lexicographic order, mapping each to
`array[c[j]] * sign`.  The mutable index vector `c` and cursor `i` of the
source loop are modelled explicitly; the outer `for` gets fuel
`C(n, k) + 1`, which is exactly the number of its condition checks. -/

/-- The refill loop `while(++i !== k) { c[i] = c[i - 1] + 1; }`
(sat.mjs line 1049): from slot `pos` on, each slot becomes its
predecessor plus one.  The countdown argument is `k - pos`. -/
def fillC : List Int → Nat → Nat → List Int
  | c, _, 0 => c
  | c, pos, r+1 => fillC (c.set pos (c.getD (pos - 1) 0 + 1)) (pos + 1) r

/-- The emission `combination[j] = array[c[j]] * sign` (sat.mjs line 1052). -/
def emitC (arr : List Int) (sign : Int) (c : List Int) (k : Nat) : List Int :=
  (List.range k).map fun j => arr.getD (c.getD j 0).toNat 0 * sign

/-- The backoff loop `while(c[--i] === n + i - k) { }` (sat.mjs line 1055):
decrement `i` past every maximal slot.  At `i = -1` the JS read `c[-1]`
yields `undefined`, the comparison is false and the loop stops, so the
`0` pattern returns `-1` without a read. -/
def backC (c : List Int) (n k : Nat) : Nat → Int
  | 0 => -1
  | ip+1 => if c.getD ip 0 = (n : Int) + ip - k then backC c n k ip else (ip : Int)

/-- The outer `for(let i = 0; c[0] !== n - k; )` loop of sat.mjs
lines 1046-1056.  `++c[i]` is modelled with `i.toNat`; the loop invariant
shows `i ≥ 0` whenever the loop condition lets the body run. -/
def combLoop (arr : List Int) (sign : Int) (n k : Nat) : Nat → List Int → Int → List (List Int)
  | 0, _, _ => []
  | f+1, c, i =>
    if c.getD 0 0 = (n : Int) - k then []
    else
      let c1 := c.set i.toNat (c.getD i.toNat 0 + 1)
      let pos := i.toNat + 1
      let c2 := fillC c1 pos (k - pos)
      emitC arr sign c2 k :: combLoop arr sign n k f c2 (backC c2 n k k)

/-- `combinations` (sat.mjs lines 1038-1059).  `new Array(k)` with
`c[0] = -1` is modelled as zeros with slot 0 set to `-1`; slots other
than 0 are written before they are ever read. -/
def combinations (k : Int) (array : List Int) (sign : Int) : List (List Int) :=
  let n := array.length
  if 1 ≤ k ∧ k ≤ (n : Int) then
    let kn := k.toNat
    combLoop array sign n kn (Nat.choose n kn + 1) ((List.replicate kn 0).set 0 (-1)) 0
  else []

/-- `at_most` (sat.mjs lines 1061-1063). -/
def at_most (k : Int) (literals : List Int) : List (List Int) :=
  combinations (k + 1) literals (-1)

/-- `at_least` (sat.mjs lines 1065-1067). -/
def at_least (k : Int) (literals : List Int) : List (List Int) :=
  combinations ((literals.length : Int) - k + 1) literals 1

/-- `exactly` (sat.mjs lines 1069-1071). -/
def exactly (k : Int) (ls : List Int) : List (List Int) :=
  at_most k ls ++ at_least k ls

/-- Specification-side strict lexicographic order on index vectors. -/
def lexLt : List Nat → List Nat → Bool
  | _, [] => false
  | [], _ :: _ => true
  | a :: as, b :: bs => if a < b then true else if a = b then lexLt as bs else false

/-- Specification-side enumeration (`Modelled from the spec`, §4.5): all
strictly increasing `k`-element index vectors over `[lo, n)`, emitted in
lexicographic order.  `at_most` is proved to be the image of
`combsFrom n (k+1) 0` under negation of the selected literals. -/
def combsFrom (n : Nat) : Nat → Nat → List (List Nat)
  | 0, _ => [[]]
  | k+1, lo => (List.range' lo (n - lo)).flatMap fun x => (combsFrom n k (x + 1)).map (x :: ·)

/-- Nat index vectors as the Int contents of the loop's `c` array. -/
def intV (v : List Nat) : List Int := v.map fun x : Nat => (x : Int)

/-- The lexicographic-successor relation on `k`-element index vectors over
`[0, n)`: slot `j` is the last non-maximal slot; the successor bumps it
and refills the tail with consecutive values (exactly what one iteration
of the source loop does via `backC` and `fillC`). -/
def nextOf (n k : Nat) (v w : List Nat) : Prop :=
  ∃ j, j < k ∧ (∀ t, j < t → t < k → v.getD t 0 = n + t - k) ∧
    v.getD j 0 ≠ n + j - k ∧
    w = v.take j ++ List.range' (v.getD j 0 + 1) (k - j)

/-- Loop-state correctness for `combLoop`: from array state `c` and cursor
`i`, the pending outputs are exactly the index vectors `vs`, one per
iteration. -/
def StateOK (n k : Nat) : List Int → Int → List (List Nat) → Prop
  | c, _, [] => c.getD 0 0 = (n : Int) - (k : Int)
  | c, i, w :: vs =>
    c.getD 0 0 ≠ (n : Int) - (k : Int) ∧
    fillC (c.set i.toNat (c.getD i.toNat 0 + 1)) (i.toNat + 1) (k - (i.toNat + 1)) = intV w ∧
    StateOK n k (intV w) (backC (intV w) n k k) vs

/-- The initial chain family: ascending clause indices per first-literal
code (produced by the reverse threading loop). -/
def ascCh (F : List (List Int)) (c : Nat) : List Nat :=
  (List.range F.length).filter fun i => firstCode F i = c

/-- Pending retry cost of the levels below `d`. -/
def pend (m n : Nat) (mv : List Nat) : Nat → Nat
  | 0 => 0
  | i+1 => pend m n mv i + (if mv.getD i 0 < 2 then Cst m + Bc m (n - i - 1) else 0)

/-- Length of the chain currently being drained (0 at a B2 point). -/
def tlOf (ch : Nat → List Nat) (pc : PC) : Nat :=
  match exemptOf pc with
  | some e => (ch e).length
  | none => 0

/-- The termination measure: strictly decreases along every internal step. -/
def meas (m n : Nat) (mv : List Nat) (tl : Nat) : PC → Nat
  | .b2 d => Bc m (n - d) + pend m n mv d
  | .b3 d _ _ =>
    tl + 1 + Bc m (n - d - 1) +
      (if mv.getD d 0 < 2 then Cst m + Bc m (n - d - 1) else 0) + pend m n mv d

/-! ## Theorems -/

/-! ### List access helpers -/

theorem getD_set_lt {α} (l : List α) (i : Nat) (v d : α) (h : i < l.length) :
    (l.set i v).getD i d = v := by
  simp [List.getD_eq_getElem?_getD, List.getElem?_set_self h]

theorem getD_set_ne {α} (l : List α) {i j : Nat} (v d : α) (h : i ≠ j) :
    (l.set i v).getD j d = l.getD j d := by
  simp [List.getD_eq_getElem?_getD, List.getElem?_set_ne h]

theorem getD_replicate {α} {k i : Nat} (m d : α) (h : i < k) :
    (List.replicate k m).getD i d = m := by
  simp [List.getD_eq_getElem?_getD, List.getElem?_replicate_of_lt h]

theorem getD_oob {α} (l : List α) (i : Nat) (d : α) (h : l.length ≤ i) :
    l.getD i d = d := by
  simp [List.getD_eq_getElem?_getD, List.getElem?_eq_none h]

/-! ### Bit arithmetic -/

theorem xor_one (l : Nat) : l ^^^ 1 = 2 * (l / 2) + (l + 1) % 2 := by
  have h1 : (l ^^^ 1) % 2 = (l + 1) % 2 := Nat.xor_mod_two_eq
  have h2 : (l ^^^ 1) / 2 = l / 2 := by
    rw [Nat.xor_div_two]; simp
  omega

theorem xor_one_lo (d b : Nat) (hb : b < 2) : (2 * d + b) ^^^ 1 = 2 * d + (1 - b) := by
  rw [xor_one]; omega

theorem xor_three {v : Nat} (h : v < 4) : v ^^^ 3 = 3 - v := by
  interval_cases v <;> rfl

/-! ### The literal codec (claim C6) -/

theorem encodeLit_pos {L : Int} (h : 0 < L) : encodeLit L = 2 * (L.natAbs - 1) := by
  unfold encodeLit
  split <;> omega

theorem encodeLit_neg {L : Int} (h : L < 0) : encodeLit L = 2 * (L.natAbs - 1) + 1 := by
  unfold encodeLit
  split <;> omega

theorem encodeLit_div2 (L : Int) : encodeLit L / 2 = L.natAbs - 1 := by
  unfold encodeLit
  split <;> omega

theorem encodeLit_mod2 (L : Int) : encodeLit L % 2 = if L < 0 then 1 else 0 := by
  unfold encodeLit
  split
  · omega
  · omega

theorem encodeLit_lt {L : Int} {n : Nat} (h0 : L ≠ 0) (hn : L.natAbs ≤ n) :
    encodeLit L < 2 * n := by
  unfold encodeLit
  split <;> omega

/-- C6.  Literal codec round-trip: for every nonzero integer `L` of valid
magnitude, decoding the internal code of `L` with the result mapper's
formula yields `L` again, and the complement (XOR 1) of `L`'s code is the
code of `-L`. -/
theorem codec_roundtrip (L : Int) (h0 : L ≠ 0) (_hb : L.natAbs < 2 ^ 31) :
    decodeLit (encodeLit L) = L ∧ encodeLit L ^^^ 1 = encodeLit (-L) := by
  have ha : 1 ≤ L.natAbs := by omega
  constructor
  · unfold decodeLit
    rw [encodeLit_mod2, encodeLit_div2]
    rcases lt_or_gt_of_ne h0 with hL | hL
    · rw [if_pos hL]
      simp only [Nat.cast_one, Nat.cast_zero]
      ring_nf
      omega
    · rw [if_neg (by omega)]
      simp only [Nat.cast_one, Nat.cast_zero]
      ring_nf
      omega
  · rcases lt_or_gt_of_ne h0 with hL | hL
    · have h2 : encodeLit (-L) = 2 * (L.natAbs - 1) := by
        rw [encodeLit_pos (by omega : (0 : Int) < -L), Int.natAbs_neg]
      rw [encodeLit_neg hL, h2, xor_one]
      omega
    · have h2 : encodeLit (-L) = 2 * (L.natAbs - 1) + 1 := by
        rw [encodeLit_neg (by omega : -L < 0), Int.natAbs_neg]
      rw [encodeLit_pos hL, h2, xor_one]
      omega

/-- Witness for C6 at `L = -5`. -/
theorem codec_roundtrip_witness :
    decodeLit (encodeLit (-5)) = -5 ∧ encodeLit (-5) ^^^ 1 = encodeLit 5 :=
  codec_roundtrip (-5) (by decide) (by norm_num)

/-! ### Range checking (claim C5)

`sat.mjs` checks only `Math.abs(literal) >= 1`; `watched_literal_flat.mjs`
and `fast_sat.mjs` additionally require `variable < 2147483649`, i.e.
`|L| ≤ 2^31` — so the literal `|L| = 2^31` passes all three validators. -/

theorem scanClauseFlat_ok {c : List Int} :
    ∀ n, (∀ L ∈ c, 1 ≤ L.natAbs ∧ L.natAbs ≤ 2 ^ 31) →
      ∃ n2, scanClauseFlat n c = .ok n2 := by
  induction c with
  | nil => exact fun n _ => ⟨n, rfl⟩
  | cons L rest ih =>
    intro n h
    have hL := h L (by simp)
    have := ih (n := max n L.natAbs) fun M hM => h M (by simp [hM])
    unfold scanClauseFlat
    rw [if_pos hL.1, if_pos (by omega)]
    exact this

theorem scanClauseFlat_err {c : List Int} :
    ∀ n, (∃ L ∈ c, 2 ^ 31 < L.natAbs) → ∃ e, scanClauseFlat n c = .error e := by
  induction c with
  | nil => rintro n ⟨L, hL, _⟩; cases hL
  | cons L rest ih =>
    rintro n ⟨M, hM, hMb⟩
    unfold scanClauseFlat
    by_cases h1 : 1 ≤ L.natAbs
    · rw [if_pos h1]
      by_cases h2 : L.natAbs < 2147483649
      · rw [if_pos h2]
        rcases List.mem_cons.mp hM with rfl | hM2
        · omega
        · exact ih _ ⟨M, hM2, hMb⟩
      · rw [if_neg h2]; exact ⟨_, rfl⟩
    · rw [if_neg h1]; exact ⟨_, rfl⟩

theorem scanClauseFast_ok {c : List Int} :
    ∀ n, (∀ L ∈ c, 1 ≤ L.natAbs ∧ L.natAbs ≤ 2 ^ 31) →
      ∃ n2, scanClauseFast n c = .ok n2 := by
  induction c with
  | nil => exact fun n _ => ⟨n, rfl⟩
  | cons L rest ih =>
    intro n h
    have hL := h L (by simp)
    have := ih (n := max n L.natAbs) fun M hM => h M (by simp [hM])
    unfold scanClauseFast
    rw [if_pos ⟨hL.1, by omega⟩]
    exact this

theorem scanClauseFast_err {c : List Int} :
    ∀ n, (∃ L ∈ c, 2 ^ 31 < L.natAbs) → ∃ e, scanClauseFast n c = .error e := by
  induction c with
  | nil => rintro n ⟨L, hL, _⟩; cases hL
  | cons L rest ih =>
    rintro n ⟨M, hM, hMb⟩
    unfold scanClauseFast
    by_cases h1 : 1 ≤ L.natAbs ∧ L.natAbs < 2147483649
    · rw [if_pos h1]
      rcases List.mem_cons.mp hM with rfl | hM2
      · omega
      · exact ih _ ⟨M, hM2, hMb⟩
    · rw [if_neg h1]; exact ⟨_, rfl⟩

theorem scanClause_ok {c : List Int} :
    ∀ n, (∀ L ∈ c, 1 ≤ L.natAbs) → ∃ n2, scanClause n c = .ok n2 := by
  induction c with
  | nil => exact fun n _ => ⟨n, rfl⟩
  | cons L rest ih =>
    intro n h
    have := ih (n := max n L.natAbs) fun M hM => h M (by simp [hM])
    unfold scanClause
    rw [if_pos (h L (by simp))]
    exact this

theorem scanFormulaFlat_err {F : List (List Int)} :
    ∀ n p, (∀ c ∈ F, c ≠ []) → (∃ c ∈ F, ∃ L ∈ c, 2 ^ 31 < L.natAbs) →
      ∃ e, scanFormulaFlat F n p = .error e := by
  induction F with
  | nil => rintro n p _ ⟨c, hc, _⟩; cases hc
  | cons c rest ih =>
    rintro n p hne ⟨c2, hc2, M, hM, hMb⟩
    unfold scanFormulaFlat
    rw [if_neg (by have := hne c (by simp); simp [List.length_pos_iff_ne_nil, this])]
    rcases List.mem_cons.mp hc2 with rfl | hc3
    · obtain ⟨e, he⟩ := scanClauseFlat_err n ⟨M, hM, hMb⟩
      rw [he]; exact ⟨e, rfl⟩
    · cases hsc : scanClauseFlat n c with
      | error e => exact ⟨e, rfl⟩
      | ok n2 => exact ih _ _ (fun d hd => hne d (by simp [hd])) ⟨c2, hc3, M, hM, hMb⟩

theorem scanFormulaFast_err {F : List (List Int)} :
    ∀ n, (∀ c ∈ F, c ≠ []) → (∃ c ∈ F, ∃ L ∈ c, 2 ^ 31 < L.natAbs) →
      ∃ e, scanFormulaFast F n = .error e := by
  induction F with
  | nil => rintro n _ ⟨c, hc, _⟩; cases hc
  | cons c rest ih =>
    rintro n hne ⟨c2, hc2, M, hM, hMb⟩
    unfold scanFormulaFast
    rw [if_neg (by have := hne c (by simp); simp [this])]
    rcases List.mem_cons.mp hc2 with rfl | hc3
    · obtain ⟨e, he⟩ := scanClauseFast_err n ⟨M, hM, hMb⟩
      rw [he]; exact ⟨e, rfl⟩
    · cases hsc : scanClauseFast n c with
      | error e => exact ⟨e, rfl⟩
      | ok n2 => exact ih _ (fun d hd => hne d (by simp [hd])) ⟨c2, hc3, M, hM, hMb⟩

theorem scanFormulaFlat_ok {F : List (List Int)} :
    ∀ n p, (∀ c ∈ F, c ≠ [] ∧ ∀ L ∈ c, 1 ≤ L.natAbs ∧ L.natAbs ≤ 2 ^ 31) →
      ∃ np, scanFormulaFlat F n p = .ok (some np) := by
  induction F with
  | nil => exact fun n p _ => ⟨(n, p), rfl⟩
  | cons c rest ih =>
    intro n p h
    unfold scanFormulaFlat
    rw [if_neg (by have := (h c (by simp)).1; simp [List.length_pos_iff_ne_nil, this])]
    obtain ⟨n2, hn2⟩ := scanClauseFlat_ok n ((h c (by simp)).2)
    rw [hn2]
    exact ih _ _ fun d hd => h d (by simp [hd])

theorem scanFormulaFast_ok {F : List (List Int)} :
    ∀ n, (∀ c ∈ F, c ≠ [] ∧ ∀ L ∈ c, 1 ≤ L.natAbs ∧ L.natAbs ≤ 2 ^ 31) →
      ∃ n2, scanFormulaFast F n = .ok (some n2) := by
  induction F with
  | nil => exact fun n _ => ⟨n, rfl⟩
  | cons c rest ih =>
    intro n h
    unfold scanFormulaFast
    rw [if_neg (by have := (h c (by simp)).1; simp [this])]
    obtain ⟨n2, hn2⟩ := scanClauseFast_ok n ((h c (by simp)).2)
    rw [hn2]
    exact ih _ fun d hd => h d (by simp [hd])

theorem scanFormula_ok {F : List (List Int)} :
    ∀ n p, (∀ c ∈ F, c ≠ [] ∧ ∀ L ∈ c, 1 ≤ L.natAbs) →
      ∃ np, scanFormula F n p = .ok (some np) := by
  induction F with
  | nil => exact fun n p _ => ⟨(n, p), rfl⟩
  | cons c rest ih =>
    intro n p h
    unfold scanFormula
    rw [if_neg (by have := (h c (by simp)).1; simp [List.length_pos_iff_ne_nil, this])]
    obtain ⟨n2, hn2⟩ := scanClause_ok n ((h c (by simp)).2)
    rw [hn2]
    exact ih _ _ fun d hd => h d (by simp [hd])

/-- C5 counterexample: the literal `2^31 = 2147483648` — whose magnitude is
not below `2^31` — passes the validation of all three files instead of
raising a range error: `watched_literal_flat.mjs` and `fast_sat.mjs` check
`variable < 2147483649` (that is `|L| ≤ 2^31`), and `sat.mjs` checks only
`variable >= 1`. -/
theorem range_check_cex :
    scanFormulaFlat [[(2147483648 : Int)]] 0 0 = .ok (some (2147483648, 1)) ∧
    scanFormulaFast [[(2147483648 : Int)]] 0 = .ok (some 2147483648) ∧
    scanFormula [[(2147483648 : Int)]] 0 0 = .ok (some (2147483648, 1)) :=
  ⟨rfl, rfl, rfl⟩

/-- C5 amended.  The bounded validators (`watched_literal_flat.mjs`,
`fast_sat.mjs`) raise a validation error for every formula of non-empty
clauses containing a literal with `|L| > 2^31`, and accept every formula
of non-empty clauses whose literals all satisfy `1 ≤ |L| ≤ 2^31`; the
`sat.mjs` validator has no upper range check at all: it accepts every
formula of non-empty clauses of literals with `|L| ≥ 1`. -/
theorem range_check_amended :
    (∀ F : List (List Int), (∀ c ∈ F, c ≠ []) →
      (∃ c ∈ F, ∃ L ∈ c, 2 ^ 31 < L.natAbs) →
      (∃ e, scanFormulaFlat F 0 0 = .error e) ∧
      (∃ e, scanFormulaFast F 0 = .error e)) ∧
    (∀ F : List (List Int),
      (∀ c ∈ F, c ≠ [] ∧ ∀ L ∈ c, 1 ≤ L.natAbs ∧ L.natAbs ≤ 2 ^ 31) →
      (∃ np, scanFormulaFlat F 0 0 = .ok (some np)) ∧
      (∃ n2, scanFormulaFast F 0 = .ok (some n2))) ∧
    (∀ F : List (List Int), (∀ c ∈ F, c ≠ [] ∧ ∀ L ∈ c, 1 ≤ L.natAbs) →
      ∃ np, scanFormula F 0 0 = .ok (some np)) :=
  ⟨fun _ hne hex => ⟨scanFormulaFlat_err _ _ hne hex, scanFormulaFast_err _ hne hex⟩,
   fun _ h => ⟨scanFormulaFlat_ok _ _ h, scanFormulaFast_ok _ h⟩,
   fun _ h => scanFormula_ok _ _ h⟩

/-- Witness for the amended C5 statement at concrete inputs. -/
theorem range_check_amended_witness :
    (∃ e, scanFormulaFlat [[(2147483649 : Int)]] 0 0 = .error e) ∧
    (∃ np, scanFormulaFlat [[(5 : Int)]] 0 0 = .ok (some np)) ∧
    (∃ np, scanFormula [[(5 : Int)]] 0 0 = .ok (some np)) :=
  ⟨(range_check_amended.1 [[(2147483649 : Int)]] (by decide)
      ⟨[(2147483649 : Int)], by decide, (2147483649 : Int), by decide, by decide⟩).1,
   (range_check_amended.2.1 [[(5 : Int)]] (by decide)).1,
   range_check_amended.2.2 [[(5 : Int)]] (by decide)⟩

/-! ### The flat formula store -/

theorem startF_zero (F : List (List Int)) : startF F 0 = 0 := by
  simp [startF]

theorem startF_succ {F : List (List Int)} {i : Nat} (h : i < F.length) :
    startF F (i + 1) = startF F i + clen F i := by
  have hF : F[i]? = some (F.getD i []) := by
    rw [List.getElem?_eq_getElem h, List.getD_eq_getElem _ _ h]
  unfold startF
  rw [List.take_succ, hF]
  simp [clen]

theorem startF_mono {F : List (List Int)} {i j : Nat} (h : i ≤ j) (hj : j ≤ F.length) :
    startF F i ≤ startF F j := by
  have key : ∀ j2, j2 ≤ F.length → ∀ i2, i2 ≤ j2 → startF F i2 ≤ startF F j2 := by
    intro j2
    induction j2 with
    | zero =>
      intro _ i2 hi2
      have : i2 = 0 := by omega
      simp [this]
    | succ j2 ih =>
      intro hj2 i2 hi2
      rcases Nat.eq_or_lt_of_le hi2 with rfl | hlt
      · exact le_rfl
      · have h1 := ih (by omega) i2 (by omega)
        rw [startF_succ (by omega)]
        omega
  exact key j hj i h

theorem startF_next_le {F : List (List Int)} {i j : Nat} (hij : i < j) (hj : j ≤ F.length) :
    startF F i + clen F i ≤ startF F j := by
  rw [← startF_succ (by omega)]
  exact startF_mono (by omega) hj

theorem startF_top (F : List (List Int)) : startF F F.length = (F.map List.length).sum := by
  simp [startF]

theorem buildRows_fst (F : List (List Int)) :
    ∀ k, (buildRows F k).1 = (F.map fun c => c.map encodeLit).flatten := by
  induction F with
  | nil => intro k; rfl
  | cons c rest ih => intro k; simp [buildRows, ih]

theorem buildRows_snd_len (F : List (List Int)) :
    ∀ k, (buildRows F k).2.length = F.length + 1 := by
  induction F with
  | nil => intro k; rfl
  | cons c rest ih => intro k; simp [buildRows, ih]

theorem buildRows_snd_getD (F : List (List Int)) :
    ∀ k i, i ≤ F.length → (buildRows F k).2.getD i 0 = k + startF F i := by
  induction F with
  | nil =>
    intro k i h
    have h0 : i = 0 := by simp at h; omega
    subst h0
    simp [buildRows, startF]
  | cons c rest ih =>
    intro k i h
    match i with
    | 0 => simp [buildRows, startF]
    | i+1 =>
      have : startF (c :: rest) (i + 1) = c.length + startF rest i := by
        simp [startF]
      simp only [buildRows, List.getD_cons_succ, this]
      rw [ih (k + c.length) i (by simpa using h)]
      omega

theorem flat_len (F : List (List Int)) :
    ((F.map fun c => c.map encodeLit).flatten).length = (F.map List.length).sum := by
  rw [List.length_flatten]
  congr 1
  simp [Function.comp]

theorem flat_getD (F : List (List Int)) :
    ∀ i, i < F.length → ∀ t, t < clen F i →
      ((F.map fun c => c.map encodeLit).flatten).getD (startF F i + t) 0
        = (EC F i).getD t 0 := by
  induction F with
  | nil => intro i h; simp at h
  | cons c rest ih =>
    intro i hi t ht
    match i with
    | 0 =>
      have h0 : startF (c :: rest) 0 = 0 := startF_zero _
      rw [h0]
      have htc : t < (c.map encodeLit).length := by
        simpa [clen] using ht
      simp only [List.map_cons, List.flatten_cons, Nat.zero_add]
      rw [List.getD_append _ _ _ _ htc]
      simp [EC]
    | i+1 =>
      have hs : startF (c :: rest) (i + 1) = c.length + startF rest i := by
        simp [startF]
      have hlen : (c.map encodeLit).length = c.length := by simp
      simp only [List.map_cons, List.flatten_cons, hs]
      rw [show c.length + startF rest i + t = (c.map encodeLit).length + (startF rest i + t) by
        rw [hlen]; omega]
      rw [List.getD_append_right _ _ _ _ (by omega)]
      rw [Nat.add_sub_cancel_left]
      have : EC (c :: rest) (i + 1) = EC rest i := by simp [EC]
      rw [this]
      exact ih i (by simpa using hi) t (by simpa [clen] using ht)

theorem window_eq_of_getD (c : List Nat) (l : List Nat) :
    ∀ a, (∀ t, t < c.length → l.getD (a + t) 0 = c.getD t 0) →
      window l a c.length = c := by
  induction c with
  | nil => intro a _; rfl
  | cons x xs ih =>
    intro a h
    have hx : l.getD a 0 = x := by simpa using h 0 (by simp)
    have hxs : window l (a + 1) xs.length = xs := by
      apply ih
      intro t ht
      have := h (t + 1) (by simp; omega)
      rwa [show a + (t + 1) = a + 1 + t by omega] at this
    simp only [window, List.length_cons, List.range'_succ, List.map_cons]
    rw [hx]
    simpa [window] using hxs

theorem window_members (lits : List Nat) (a len : Nat) :
    ∀ x ∈ window lits a len, ∃ k, a ≤ k ∧ k < a + len ∧ lits.getD k 0 = x := by
  intro x hx
  obtain ⟨k, hk, rfl⟩ := List.mem_map.mp hx
  exact ⟨k, (List.mem_range'_1.mp hk).1, by have := (List.mem_range'_1.mp hk).2; omega, rfl⟩

theorem window_slot (lits : List Nat) (a len k : Nat) (h1 : a ≤ k) (h2 : k < a + len) :
    lits.getD k 0 ∈ window lits a len := by
  exact List.mem_map.mpr ⟨k, List.mem_range'_1.mpr ⟨h1, by omega⟩, rfl⟩

/-! ### Watch chains -/

theorem IsChain.mem_lt {nx : List Nat} {m h : Nat} {cs : List Nat}
    (hc : IsChain nx m h cs) : ∀ x ∈ cs, x < m := by
  induction hc with
  | nil => simp
  | cons hj _ ih =>
    intro x hx
    rcases List.mem_cons.mp hx with rfl | hx2
    · assumption
    · exact ih x hx2

theorem IsChain.eq_nil {nx : List Nat} {m h : Nat} {cs : List Nat}
    (hc : IsChain nx m h cs) (hh : ¬ h < m) : cs = [] := by
  cases hc with
  | nil => rfl
  | cons hj _ => omega

theorem IsChain.head_cases {nx : List Nat} {m h : Nat} {cs : List Nat}
    (hc : IsChain nx m h cs) :
    (¬ h < m ∧ cs = []) ∨ (h < m ∧ ∃ cs2, cs = h :: cs2 ∧ IsChain nx m (nx.getD h 0) cs2) := by
  cases hc with
  | nil => left; exact ⟨by omega, rfl⟩
  | cons hj ht => right; exact ⟨hj, _, rfl, ht⟩

theorem IsChain.set_irrel {nx : List Nat} {m : Nat} {cs : List Nat} {a v : Nat}
    (ha : ∀ x ∈ cs, x ≠ a) :
    ∀ {h}, IsChain nx m h cs → IsChain (nx.set a v) m h cs := by
  induction cs with
  | nil =>
    intro h hc
    cases hc with
    | nil => exact .nil
  | cons x xs ih =>
    intro h hc
    cases hc with
    | cons hj ht =>
      refine .cons hj ?_
      have hxa : x ≠ a := ha x (by simp)
      rw [getD_set_ne _ _ _ (Ne.symm hxa)]
      exact ih (fun y hy => ha y (by simp [hy])) ht

theorem IsChain.set_irrel_rev {nx : List Nat} {m : Nat} {cs : List Nat} {a v : Nat}
    (ha : ∀ x ∈ cs, x ≠ a) :
    ∀ {h}, IsChain (nx.set a v) m h cs → IsChain nx m h cs := by
  induction cs with
  | nil =>
    intro h hc
    cases hc with
    | nil => exact .nil
  | cons x xs ih =>
    intro h hc
    cases hc with
    | cons hj ht =>
      refine .cons hj ?_
      have hxa : x ≠ a := ha x (by simp)
      rw [getD_set_ne _ _ _ (Ne.symm hxa)] at ht
      exact ih (fun y hy => ha y (by simp [hy])) ht

theorem chain_len_le {cs : List Nat} {m : Nat} (hnd : cs.Nodup)
    (hlt : ∀ x ∈ cs, x < m) : cs.length ≤ m := by
  classical
  have h1 : cs.toFinset.card = cs.length := List.toFinset_card_of_nodup hnd
  have h2 : cs.toFinset ⊆ Finset.range m := by
    intro x hx
    simpa using hlt x (by simpa using hx)
  have := Finset.card_le_card h2
  simpa [h1] using this

/-! ### Swapping two slots permutes a window -/

theorem map_swap_perm (xs : List Nat) (hnd : xs.Nodup) (f g : Nat → Nat) (i k : Nat)
    (hi : i ∈ xs) (hk : k ∈ xs) (hik : i ≠ k)
    (hgi : g i = f k) (hgk : g k = f i)
    (hother : ∀ x ∈ xs, x ≠ i → x ≠ k → g x = f x) :
    (xs.map g).Perm (xs.map f) := by
  classical
  set σ := Equiv.swap i k with hσ
  have hg : ∀ x ∈ xs, g x = (f ∘ σ) x := by
    intro x hx
    by_cases h1 : x = i
    · subst h1
      simp only [Function.comp, hσ, Equiv.swap_apply_left]
      exact hgi
    · by_cases h2 : x = k
      · subst h2
        simp only [Function.comp, hσ, Equiv.swap_apply_right]
        exact hgk
      · simp only [Function.comp, hσ, Equiv.swap_apply_of_ne_of_ne h1 h2]
        exact hother x hx h1 h2
  have hmapeq : xs.map g = (xs.map σ).map f := by
    rw [List.map_map]
    exact List.map_congr_left hg
  have hperm : (xs.map σ).Perm xs := by
    rw [List.perm_iff_count]
    intro a
    have hnd2 : (xs.map σ).Nodup := hnd.map σ.injective
    have hmem : a ∈ xs.map σ ↔ a ∈ xs := by
      simp only [List.mem_map]
      constructor
      · rintro ⟨x, hx, rfl⟩
        by_cases h1 : x = i
        · subst h1; simpa [hσ, Equiv.swap_apply_left] using hk
        · by_cases h2 : x = k
          · subst h2; simpa [hσ, Equiv.swap_apply_right] using hi
          · simpa [hσ, Equiv.swap_apply_of_ne_of_ne h1 h2] using hx
      · intro ha
        refine ⟨σ a, ?_, σ.apply_eq_iff_eq_symm_apply.mpr ?_⟩
        · by_cases h1 : a = i
          · subst h1; simpa [hσ, Equiv.swap_apply_left] using hk
          · by_cases h2 : a = k
            · subst h2; simpa [hσ, Equiv.swap_apply_right] using hi
            · simpa [hσ, Equiv.swap_apply_of_ne_of_ne h1 h2] using ha
        · simp [hσ]
    by_cases ha : a ∈ xs
    · rw [List.count_eq_one_of_mem hnd2 (hmem.mpr ha), List.count_eq_one_of_mem hnd ha]
    · rw [List.count_eq_zero_of_not_mem (fun hc => ha (hmem.mp hc)),
        List.count_eq_zero_of_not_mem ha]
  rw [hmapeq]
  exact hperm.map f

/-! ### The successful validation scan yields the formula parameters -/

theorem scanClause_spec :
    ∀ (c : List Int) n n2, scanClause n c = .ok n2 →
      n ≤ n2 ∧ ∀ L ∈ c, L ≠ 0 ∧ L.natAbs ≤ n2 := by
  intro c
  induction c with
  | nil =>
    intro n n2 h
    simp only [scanClause, Except.ok.injEq] at h
    subst h
    exact ⟨le_rfl, by simp⟩
  | cons L rest ih =>
    intro n n2 h
    unfold scanClause at h
    by_cases h1 : 1 ≤ L.natAbs
    · rw [if_pos h1] at h
      obtain ⟨hle, hall⟩ := ih _ _ h
      refine ⟨le_trans (le_max_left _ _) hle, ?_⟩
      intro M hM
      rcases List.mem_cons.mp hM with rfl | hM2
      · exact ⟨by omega, le_trans (le_max_right _ _) hle⟩
      · exact hall M hM2
    · rw [if_neg h1] at h
      cases h

theorem scanFormula_spec :
    ∀ (F : List (List Int)) n p n2 p2, scanFormula F n p = .ok (some (n2, p2)) →
      (∀ c ∈ F, c ≠ [] ∧ ∀ L ∈ c, L ≠ 0 ∧ L.natAbs ≤ n2) ∧
      p2 = p + (F.map List.length).sum ∧ n ≤ n2 := by
  intro F
  induction F with
  | nil =>
    intro n p n2 p2 h
    simp only [scanFormula, Except.ok.injEq, Option.some.injEq, Prod.mk.injEq] at h
    obtain ⟨rfl, rfl⟩ := h
    exact ⟨by simp, by simp, le_rfl⟩
  | cons c rest ih =>
    intro n p n2 p2 h
    unfold scanFormula at h
    by_cases hc : c.length < 1
    · rw [if_pos hc] at h; cases h
    · rw [if_neg hc] at h
      cases hsc : scanClause n c with
      | error e => rw [hsc] at h; cases h
      | ok nmid =>
        rw [hsc] at h
        obtain ⟨hall, hp, hn⟩ := ih _ _ _ _ h
        obtain ⟨hle, hcl⟩ := scanClause_spec c n nmid hsc
        refine ⟨?_, ?_, le_trans hle hn⟩
        · intro d hd
          rcases List.mem_cons.mp hd with rfl | hd2
          · refine ⟨by simpa [List.length_pos_iff_ne_nil] using hc, ?_⟩
            intro L hL
            obtain ⟨h0, hb⟩ := hcl L hL
            exact ⟨h0, le_trans hb hn⟩
          · exact hall d hd2
        · simp only [List.map_cons, List.sum_cons]
          omega

theorem scanFormula_none :
    ∀ (F : List (List Int)) n p, scanFormula F n p = .ok none → ∃ c ∈ F, c = [] := by
  intro F
  induction F with
  | nil => intro n p h; simp [scanFormula] at h
  | cons c rest ih =>
    intro n p h
    unfold scanFormula at h
    by_cases hc : c.length < 1
    · refine ⟨c, by simp, ?_⟩
      cases c
      · rfl
      · simp at hc
    · rw [if_neg hc] at h
      cases hsc : scanClause n c with
      | error e => rw [hsc] at h; cases h
      | ok nmid =>
        rw [hsc] at h
        obtain ⟨d, hd, hde⟩ := ih _ _ h
        exact ⟨d, by simp [hd], hde⟩

theorem FOK_of_scan {F : List (List Int)} {n p : Nat}
    (h : scanFormula F 0 0 = .ok (some (n, p))) : FOK F F.length n p := by
  obtain ⟨hall, hp, _⟩ := scanFormula_spec F 0 0 n p h
  exact {
    m_eq := rfl
    nonempty := fun c hc => (hall c hc).1
    nz := fun c hc L hL => ((hall c hc).2 L hL).1
    vbound := fun c hc L hL => ((hall c hc).2 L hL).2
    p_eq := by simpa using hp }

/-! ### The threading loop builds ascending chains -/

theorem firstCode_lt {F : List (List Int)} {m n p : Nat} (fok : FOK F m n p)
    {i : Nat} (hi : i < m) : firstCode F i < 2 * n := by
  have him : i < F.length := by rw [← fok.m_eq]; exact hi
  have hmem : F.getD i [] ∈ F := by
    rw [List.getD_eq_getElem _ _ him]
    exact List.getElem_mem _
  obtain ⟨x, xs, hx⟩ : ∃ x xs, F.getD i [] = x :: xs := by
    cases hc : F.getD i [] with
    | nil => exact absurd hc (fok.nonempty _ hmem)
    | cons x xs => exact ⟨x, xs, rfl⟩
  have hxmem : x ∈ F.getD i [] := by rw [hx]; simp
  unfold firstCode
  rw [hx]
  simp only [List.headD_cons]
  exact encodeLit_lt (fok.nz _ hmem x hxmem) (fok.vbound _ hmem x hxmem)

theorem threadLoop_spec (F : List (List Int)) (n : Nat)
    (hcode : ∀ i < F.length, firstCode F i < 2 * n) :
    ∀ i, i ≤ F.length → ∀ w nx : List Nat, w.length = 2 * n → nx.length = F.length →
      (∀ c < 2 * n, IsChain nx F.length (w.getD c 0)
        ((List.range' i (F.length - i)).filter fun j => firstCode F j = c)) →
      (threadLoop F i (w, nx)).1.length = 2 * n ∧
      (threadLoop F i (w, nx)).2.length = F.length ∧
      (∀ c < 2 * n, IsChain (threadLoop F i (w, nx)).2 F.length
        ((threadLoop F i (w, nx)).1.getD c 0)
        ((List.range F.length).filter fun j => firstCode F j = c)) := by
  intro i
  induction i with
  | zero =>
    intro _ w nx hw hnx hch
    refine ⟨hw, hnx, ?_⟩
    intro c hc
    have := hch c hc
    simpa [threadLoop, List.range_eq_range'] using this
  | succ i ih =>
    intro hi w nx hw hnx hch
    have hiF : i < F.length := by omega
    set c0 := firstCode F i with hc0
    have hc0lt : c0 < 2 * n := hcode i hiF
    have hstep : threadLoop F (i + 1) (w, nx)
        = threadLoop F i (w.set c0 i, nx.set i (w.getD c0 0)) := rfl
    rw [hstep]
    have hsplit : List.range' i (F.length - i)
        = i :: List.range' (i + 1) (F.length - (i + 1)) := by
      rw [show F.length - i = (F.length - (i + 1)) + 1 by omega, List.range'_succ]
    have htail_ge : ∀ c x, x ∈ (List.range' (i + 1) (F.length - (i + 1))).filter
        (fun j => firstCode F j = c) → i + 1 ≤ x := by
      intro c x hx
      exact (List.mem_range'_1.mp (List.mem_filter.mp hx).1).1
    apply ih (by omega)
    · simpa using hw
    · simpa using hnx
    · intro c hc
      by_cases hcc : c = c0
      · have hhead : (w.set c0 i).getD c 0 = i := by
          rw [hcc]
          exact getD_set_lt _ _ _ _ (by omega)
        rw [hhead]
        have hfilter : (List.range' i (F.length - i)).filter (fun j => firstCode F j = c)
            = i :: (List.range' (i + 1) (F.length - (i + 1))).filter
                (fun j => firstCode F j = c) := by
          rw [hsplit]
          simp only [List.filter_cons]
          rw [if_pos (by simp [hcc, hc0])]
        rw [hfilter]
        refine IsChain.cons hiF ?_
        have hnxi : (nx.set i (w.getD c0 0)).getD i 0 = w.getD c0 0 :=
          getD_set_lt _ _ _ _ (by omega)
        rw [hnxi]
        have hchc := hch c hc
        rw [show w.getD c 0 = w.getD c0 0 by rw [hcc]] at hchc
        exact hchc.set_irrel (fun x hx => by have := htail_ge c x hx; omega)
      · have hhead : (w.set c0 i).getD c 0 = w.getD c 0 :=
          getD_set_ne _ _ _ (fun h => hcc h.symm)
        rw [hhead]
        have hfilter : (List.range' i (F.length - i)).filter (fun j => firstCode F j = c)
            = (List.range' (i + 1) (F.length - (i + 1))).filter
                (fun j => firstCode F j = c) := by
          rw [hsplit]
          simp only [List.filter_cons]
          rw [if_neg (by simpa [hc0] using fun h => hcc h.symm)]
        rw [hfilter]
        exact (hch c hc).set_irrel (fun x hx => by have := htail_ge c x hx; omega)

/-! ### The initial state satisfies the invariant -/

theorem EC_len (F : List (List Int)) (i : Nat) : (EC F i).length = clen F i := by
  simp [EC, clen]

theorem getD_mem_of_lt {F : List (List Int)} {i : Nat} (h : i < F.length) :
    F.getD i [] ∈ F := by
  rw [List.getD_eq_getElem _ _ h]
  exact List.getElem_mem _

theorem initSt_window {F : List (List Int)} {m n p : Nat} (fok : FOK F m n p)
    {i : Nat} (hi : i < m) :
    window (initSt F n).literals (startF F i) (clen F i) = EC F i := by
  have him : i < F.length := by rw [← fok.m_eq]; exact hi
  have hl : (initSt F n).literals = (F.map fun c => c.map encodeLit).flatten := by
    simp [initSt, buildRows_fst]
  rw [hl, ← EC_len F i]
  apply window_eq_of_getD
  intro t ht
  rw [EC_len F i] at ht
  exact flat_getD F i him t ht

theorem initSt_start {F : List (List Int)} {n : Nat} {i : Nat} (hi : i ≤ F.length) :
    (initSt F n).start.getD i 0 = startF F i := by
  have := buildRows_snd_getD F 0 i hi
  simpa [initSt] using this

theorem initSt_firstLit {F : List (List Int)} {m n p : Nat} (fok : FOK F m n p)
    {i : Nat} (hi : i < m) :
    firstLit (initSt F n) i = firstCode F i := by
  have him : i < F.length := by rw [← fok.m_eq]; exact hi
  have hclen : 0 < clen F i := by
    have hne := fok.nonempty _ (getD_mem_of_lt him)
    simpa [clen, List.length_pos_iff_ne_nil] using hne
  have hl : (initSt F n).literals = (F.map fun c => c.map encodeLit).flatten := by
    simp [initSt, buildRows_fst]
  unfold firstLit
  rw [initSt_start (by omega), hl]
  have := flat_getD F i him 0 hclen
  rw [Nat.add_zero] at this
  rw [this]
  cases hc : F.getD i [] with
  | nil =>
    unfold clen at hclen
    rw [hc] at hclen
    simp at hclen
  | cons x xs =>
    unfold EC firstCode
    rw [hc]
    simp

theorem init_inv (F : List (List Int)) (m n p : Nat) (fok : FOK F m n p) :
    Inv F m n p (initSt F n) (.b2 0) (ascCh F) := by
  have hm := fok.m_eq
  have hcode : ∀ i < F.length, firstCode F i < 2 * n := by
    intro i hi
    exact firstCode_lt fok (by omega)
  have hthread := threadLoop_spec F n hcode F.length le_rfl
    (List.replicate (2 * n) F.length) (List.replicate F.length F.length)
    (by simp) (by simp)
    (by
      intro c hc
      rw [getD_replicate _ _ hc]
      simp only [Nat.sub_self, List.range'_zero, List.filter_nil]
      exact .nil)
  obtain ⟨hwlen, hnxlen, hchains⟩ := hthread
  refine {
    frame := rfl
    lits_len := ?_
    start_len := by simp [initSt, buildRows_snd_len, hm]
    start_eq := ?_
    watch_len := by simpa [initSt, hm] using hwlen
    next_len := by simpa [initSt, hm] using hnxlen
    move_len := by simp [initSt]
    wperm := ?_
    move_lt := ?_
    chain := ?_
    chEmpty := ?_
    nodup := ?_
    disj := ?_
    cover := ?_
    watches := ?_
    d_le := by simp [assigned]
    pc_ok := by intro d l j h; cases h
    nf := ?_
    cinv := by intro i hi; simp [assigned] at hi
    gfree := by intro v hv; simp [assigned] at hv }
  · simp only [initSt, buildRows_fst, flat_len]
    exact (fok.p_eq).symm
  · intro i hi
    exact initSt_start (by omega)
  · intro i hi
    rw [initSt_window fok hi]
  · intro v
    by_cases hv : v < n
    · rw [show (initSt F n).move = List.replicate n 0 from rfl, getD_replicate _ _ hv]
      omega
    · rw [show (initSt F n).move = List.replicate n 0 from rfl,
        getD_oob _ _ _ (by simp; omega)]
      omega
  · intro c hc
    have := hchains c hc
    simpa [initSt, headOf, ascCh, hm] using this
  · intro c hc
    apply List.filter_eq_nil_iff.mpr
    intro j hj
    simp only [decide_eq_true_eq]
    intro hfc
    exact hc (hfc ▸ hcode j (by simpa using hj))
  · intro c
    exact (List.nodup_range _).filter _
  · intro c1 c2 hne j h1 h2
    have e1 := List.of_mem_filter h1
    have e2 := List.of_mem_filter h2
    simp only [decide_eq_true_eq] at e1 e2
    exact hne (e1 ▸ e2 ▸ rfl)
  · intro j hj
    refine ⟨firstCode F j, hcode j (by omega), ?_⟩
    apply List.mem_filter.mpr
    exact ⟨List.mem_range.mpr (by omega), by simp⟩
  · intro c j hj
    have hjm : j < m := by
      have := (List.mem_filter.mp hj).1
      rw [hm]
      simpa using this
    have hfc := List.of_mem_filter hj
    simp only [decide_eq_true_eq] at hfc
    exact ⟨hjm, by rw [initSt_firstLit fok hjm, hfc]⟩
  · intro c hc _ _
    left
    simp [assigned]

/-! ### Loop characterizations -/

theorem scanRepl_some_spec {lits mv : List Nat} {d : Nat} :
    ∀ r k kf, scanRepl lits mv d r k = some kf →
      k ≤ kf ∧ kf < k + r ∧ NF mv (d + 1) (lits.getD kf 0) := by
  intro r
  induction r with
  | zero => intro k kf h; cases h
  | succ r ih =>
    intro k kf h
    unfold scanRepl at h
    by_cases hp : d < lits.getD k 0 / 2 ∨ (lits.getD k 0 + mv.getD (lits.getD k 0 / 2) 0) % 2 = 0
    · rw [if_pos hp] at h
      cases h
      exact ⟨le_rfl, by omega, by unfold NF; omega⟩
    · rw [if_neg hp] at h
      obtain ⟨h1, h2, h3⟩ := ih (k + 1) kf h
      exact ⟨by omega, by omega, h3⟩

theorem scanRepl_none_spec {lits mv : List Nat} {d : Nat} :
    ∀ r k, scanRepl lits mv d r k = none →
      ∀ k2, k ≤ k2 → k2 < k + r → ¬ NF mv (d + 1) (lits.getD k2 0) := by
  intro r
  induction r with
  | zero => intro k _ k2 _ _; omega
  | succ r ih =>
    intro k h k2 hk1 hk2
    unfold scanRepl at h
    by_cases hp : d < lits.getD k 0 / 2 ∨ (lits.getD k 0 + mv.getD (lits.getD k 0 / 2) 0) % 2 = 0
    · rw [if_pos hp] at h; cases h
    · rw [if_neg hp] at h
      rcases Nat.eq_or_lt_of_le hk1 with rfl | hlt
      · unfold NF; omega
      · exact ih (k + 1) h k2 (by omega) (by omega)

theorem backjump_none_spec {mv : List Nat} :
    ∀ d, backjump mv d = none → ∀ i ≤ d, 2 ≤ mv.getD i 0 := by
  intro d
  induction d with
  | zero =>
    intro h i hi
    unfold backjump at h
    by_cases h2 : 2 ≤ mv.getD 0 0
    · have : i = 0 := by omega
      subst this; exact h2
    · rw [if_neg h2] at h; cases h
  | succ d ih =>
    intro h i hi
    unfold backjump at h
    by_cases h2 : 2 ≤ mv.getD (d + 1) 0
    · rw [if_pos h2] at h
      rcases Nat.eq_or_lt_of_le hi with rfl | hlt
      · exact h2
      · exact ih h i (by omega)
    · rw [if_neg h2] at h; cases h

theorem backjump_some_spec {mv : List Nat} :
    ∀ d e, backjump mv d = some e →
      e ≤ d ∧ mv.getD e 0 < 2 ∧ ∀ i, e < i → i ≤ d → 2 ≤ mv.getD i 0 := by
  intro d
  induction d with
  | zero =>
    intro e h
    unfold backjump at h
    by_cases h2 : 2 ≤ mv.getD 0 0
    · rw [if_pos h2] at h; cases h
    · rw [if_neg h2] at h
      cases h
      exact ⟨le_rfl, by omega, by omega⟩
  | succ d ih =>
    intro e h
    unfold backjump at h
    by_cases h2 : 2 ≤ mv.getD (d + 1) 0
    · rw [if_pos h2] at h
      obtain ⟨h1, h3, h4⟩ := ih e h
      refine ⟨by omega, h3, ?_⟩
      intro i hi1 hi2
      rcases Nat.eq_or_lt_of_le hi2 with rfl | hlt
      · exact h2
      · exact h4 i hi1 (by omega)
    · rw [if_neg h2] at h
      cases h
      exact ⟨le_rfl, by omega, by omega⟩

/-! ### Ghost invariant plumbing -/

theorem Follows_congr {τ : Nat → Bool} {mv mv2 : List Nat} {dd : Nat}
    (h : ∀ v < dd, mv2.getD v 0 = mv.getD v 0) :
    Follows τ mv2 dd ↔ Follows τ mv dd := by
  unfold Follows
  constructor <;> intro hf v hv
  · rw [← h v hv]; exact hf v hv
  · rw [h v hv]; exact hf v hv

theorem CInv_congr {F : List (List Int)} {mv mv2 : List Nat} {dd : Nat}
    (h : ∀ v < dd, mv2.getD v 0 = mv.getD v 0) (hc : CInv F mv dd) : CInv F mv2 dd := by
  intro i hi h2
  rw [h i hi] at h2
  intro hex
  apply hc i hi h2
  obtain ⟨τ, h3, h4, h5⟩ := hex
  refine ⟨τ, ?_, ?_, h5⟩
  · exact (Follows_congr fun v hv => h v (by omega)).mp h3
  · rwa [h i hi] at h4

theorem CInv_set_ge {F : List (List Int)} {mv : List Nat} {dd e : Nat} {x : Nat}
    (hc : CInv F mv dd) (he : dd ≤ e) : CInv F (mv.set e x) dd :=
  CInv_congr (fun v hv => getD_set_ne _ _ _ (by omega)) hc

theorem CInv_set_fresh {F : List (List Int)} {mv : List Nat} {dd : Nat} {x : Nat}
    (hc : CInv F mv dd) (hx : x < 2) (hlen : dd < mv.length) :
    CInv F (mv.set dd x) (dd + 1) := by
  intro i hi h2
  by_cases hie : i = dd
  · subst hie
    rw [getD_set_lt _ _ _ _ hlen] at h2
    omega
  · have hilt : i < dd := by omega
    have hc2 : CInv F (mv.set dd x) dd := CInv_set_ge hc le_rfl
    exact hc2 i hilt h2

theorem pend_congr {m n : Nat} {mv mv2 : List Nat} :
    ∀ d, (∀ i < d, mv2.getD i 0 = mv.getD i 0) → pend m n mv2 d = pend m n mv d := by
  intro d
  induction d with
  | zero => intro _; rfl
  | succ d ih =>
    intro h
    unfold pend
    rw [ih fun i hi => h i (by omega), h d (by omega)]

/-! ### Free variables are never watched -/

theorem encodeLit_var {L : Int} (h0 : L ≠ 0) : encodeLit L / 2 + 1 = L.natAbs := by
  rw [encodeLit_div2]
  omega

theorem free_chain_empty {F : List (List Int)} {m n p : Nat} {s : St} {pc : PC}
    {ch : Nat → List Nat} (fok : FOK F m n p) (inv : Inv F m n p s pc ch)
    {v : Nat} (hfree : FreeVar F v) {c : Nat} (hc : c / 2 = v) : ch c = [] := by
  cases hch : ch c with
  | nil => rfl
  | cons x xs =>
    exfalso
    have hx : x ∈ ch c := by rw [hch]; simp
    obtain ⟨hxm, hfl⟩ := inv.watches c x hx
    have hxF : x < F.length := by rw [← fok.m_eq]; exact hxm
    have hclen : 0 < clen F x := by
      have hne := fok.nonempty _ (getD_mem_of_lt hxF)
      simpa [clen, List.length_pos_iff_ne_nil] using hne
    have hslot : c ∈ window s.literals (startF F x) (clen F x) := by
      rw [← hfl]
      unfold firstLit
      rw [inv.start_eq x (by omega)]
      exact window_slot _ _ _ _ le_rfl (by omega)
    have hmem : c ∈ EC F x := ((inv.wperm x hxm).mem_iff).mp hslot
    obtain ⟨L, hL, hLe⟩ := List.mem_map.mp hmem
    have h0 : L ≠ 0 := fok.nz _ (getD_mem_of_lt hxF) L hL
    have : L.natAbs = v + 1 := by
      rw [← encodeLit_var h0, hLe, hc]
    exact hfree _ (getD_mem_of_lt hxF) L hL this

/-! ### Preservation: the B2 decision step -/

theorem chain_tl_le {F : List (List Int)} {m n p : Nat} {s : St} {pc : PC}
    {ch : Nat → List Nat} (inv : Inv F m n p s pc ch) (c : Nat) :
    (ch c).length ≤ m :=
  chain_len_le (inv.nodup c) (fun x hx => (inv.watches c x hx).1)

theorem Bc_succ (m k : Nat) : Bc m (k + 1) = 1 + 2 * Cst m + 2 * Bc m k := rfl

theorem stepB2 {F : List (List Int)} {m n p : Nat} {s : St} {ch : Nat → List Nat}
    {d : Nat} (fok : FOK F m n p) (inv : Inv F m n p s (.b2 d) ch) (hd : d < n) :
    ∃ s2 pc2, step m n s (.b2 d) = .inl (s2, pc2) ∧
      Inv F m n p s2 pc2 ch ∧
      meas m n s2.move (tlOf ch pc2) pc2 < meas m n s.move (tlOf ch (.b2 d)) (.b2 d) := by
  have hmv2 : phase s.watch m d < 2 := by
    unfold phase; split <;> omega
  set mv := phase s.watch m d with hmvdef
  set l := 2 * d + mv with hldef
  have hl1 : l ^^^ 1 = 2 * d + (1 - mv) := xor_one_lo d mv hmv2
  set s2 : St := { s with move := s.move.set d mv } with hs2
  set j0 := s.watch.getD (l ^^^ 1) 0 with hj0
  have hstep : step m n s (.b2 d) = .inl (s2, .b3 d l j0) := by
    simp only [step, if_pos hd]
  have hmvget : s2.move.getD d 0 = mv := by
    rw [hs2]
    exact getD_set_lt _ _ _ _ (by rw [inv.move_len]; omega)
  have hmvother : ∀ v, v ≠ d → s2.move.getD v 0 = s.move.getD v 0 := by
    intro v hv
    rw [hs2]
    exact getD_set_ne _ _ _ (fun h => hv h.symm)
  refine ⟨s2, .b3 d l j0, hstep, ?_, ?_⟩
  · refine {
      frame := inv.frame
      lits_len := inv.lits_len
      start_len := inv.start_len
      start_eq := inv.start_eq
      watch_len := inv.watch_len
      next_len := inv.next_len
      move_len := by rw [hs2]; simpa using inv.move_len
      wperm := inv.wperm
      move_lt := ?_
      chain := ?_
      chEmpty := inv.chEmpty
      nodup := inv.nodup
      disj := inv.disj
      cover := inv.cover
      watches := ?_
      d_le := by simpa [assigned] using hd
      pc_ok := ?_
      nf := ?_
      cinv := ?_
      gfree := ?_ }
    · intro v
      by_cases hv : v = d
      · subst hv; rw [hmvget]; omega
      · rw [hmvother v hv]; exact inv.move_lt v
    · intro c hc
      have hbase := inv.chain c hc
      by_cases hce : c = l ^^^ 1
      · subst hce
        simpa [headOf, hj0] using hbase
      · simpa [headOf, hce] using hbase
    · intro c x hx
      obtain ⟨h1, h2⟩ := inv.watches c x hx
      exact ⟨h1, h2⟩
    · intro d2 l2 j2 heq
      injection heq with e1 e2 e3
      subst e1; subst e2
      refine ⟨hd, ?_⟩
      rw [hmvget]
      omega
    · intro c hc hcl hne
      have hNF := inv.nf c hc (by simp [exemptOf]) hne
      simp only [exemptOf, Option.some.injEq] at hcl
      unfold NF at hNF ⊢
      simp only [assigned] at hNF ⊢
      by_cases h1 : d + 1 ≤ c / 2
      · left; exact h1
      · by_cases h2 : c / 2 = d
        · have hc2 : c = 2 * d + mv := by
            have hor : c = 2 * d ∨ c = 2 * d + 1 := by omega
            have hne2 : c ≠ 2 * d + (1 - mv) := by
              rw [← hl1]; exact fun h => hcl (h.symm ▸ rfl)
            omega
          right
          have hg : s2.move.getD (c / 2) 0 = mv := by rw [h2]; exact hmvget
          rw [hg, hc2]
          omega
        · have hg : s2.move.getD (c / 2) 0 = s.move.getD (c / 2) 0 :=
            hmvother _ (by omega)
          rcases hNF with h | h
          · omega
          · right; rw [hg]; exact h
    · simp only [assigned]
      exact CInv_set_fresh inv.cinv hmv2 (by rw [inv.move_len]; omega)
    · intro v hv hfree
      simp only [assigned] at hv
      by_cases hvd : v = d
      · subst hvd
        rw [hmvget]
        have hch2d : ch (2 * v) = [] :=
          free_chain_empty fok inv hfree (by omega)
        have hw2d : m ≤ s.watch.getD (2 * v) 0 := by
          have hchain := inv.chain (2 * v) (by omega)
          rw [hch2d] at hchain
          rcases hchain.head_cases with ⟨hge, _⟩ | ⟨_, cs2, heq, _⟩
          · simpa [headOf] using Nat.le_of_not_lt hge
          · cases heq
        have : mv = 1 := by
          rw [hmvdef]
          unfold phase
          rw [if_pos (Or.inl hw2d)]
        omega
      · rw [hmvother v hvd]
        exact inv.gfree v (by simp only [assigned]; omega) hfree
  · have htl : (ch (l ^^^ 1)).length ≤ m := chain_tl_le inv _
    have hpend : pend m n s2.move d = pend m n s.move d :=
      pend_congr d (fun i hi => hmvother i (by omega))
    have hbc : Bc m (n - d) = 1 + 2 * Cst m + 2 * Bc m (n - d - 1) := by
      rw [congrArg (Bc m) (show n - d = (n - d - 1) + 1 by omega), Bc_succ]
    have hcst : Cst m = m + 2 := rfl
    simp only [meas, tlOf, exemptOf]
    rw [hmvget, if_pos hmv2, hpend, hbc]
    omega

/-! ### Preservation: the B4 advance step (drained chain is empty) -/

theorem pend_succ (m n : Nat) (mv : List Nat) (i : Nat) :
    pend m n mv (i + 1) = pend m n mv i
      + (if mv.getD i 0 < 2 then Cst m + Bc m (n - i - 1) else 0) := rfl

theorem stepB3_exit {F : List (List Int)} {m n p : Nat} {s : St} {ch : Nat → List Nat}
    {d l j : Nat} (fok : FOK F m n p) (inv : Inv F m n p s (.b3 d l j) ch)
    (hj : ¬ j < m) :
    ∃ s2, step m n s (.b3 d l j) = .inl (s2, .b2 (d + 1)) ∧
      Inv F m n p s2 (.b2 (d + 1)) ch ∧
      meas m n s2.move (tlOf ch (.b2 (d + 1))) (.b2 (d + 1))
        < meas m n s.move (tlOf ch (.b3 d l j)) (.b3 d l j) := by
  obtain ⟨hdn, hleq⟩ := inv.pc_ok d l j rfl
  have hb : s.move.getD d 0 % 2 < 2 := by omega
  have hl1 : l ^^^ 1 = 2 * d + (1 - s.move.getD d 0 % 2) := by
    rw [hleq]; exact xor_one_lo _ _ hb
  have hlc : l ^^^ 1 < 2 * n := by omega
  have htail : ch (l ^^^ 1) = [] := by
    have hchain := inv.chain (l ^^^ 1) hlc
    have hhead : headOf s (.b3 d l j) (l ^^^ 1) = j := by simp [headOf]
    rw [hhead] at hchain
    exact hchain.eq_nil hj
  set s2 : St := { s with watch := s.watch.set (l ^^^ 1) m } with hs2
  have hstep : step m n s (.b3 d l j) = .inl (s2, .b2 (d + 1)) := by
    simp only [step, if_neg hj]
  refine ⟨s2, hstep, ?_, ?_⟩
  · refine {
      frame := inv.frame
      lits_len := inv.lits_len
      start_len := inv.start_len
      start_eq := inv.start_eq
      watch_len := by rw [hs2]; simpa using inv.watch_len
      next_len := inv.next_len
      move_len := inv.move_len
      wperm := inv.wperm
      move_lt := inv.move_lt
      chain := ?_
      chEmpty := inv.chEmpty
      nodup := inv.nodup
      disj := inv.disj
      cover := inv.cover
      watches := fun c x hx => inv.watches c x hx
      d_le := by simpa [assigned] using hdn
      pc_ok := by intro d2 l2 j2 heq; cases heq
      nf := ?_
      cinv := by
        have := inv.cinv
        simpa [assigned] using this
      gfree := by
        intro v hv hfree
        exact inv.gfree v (by simpa [assigned] using hv) hfree }
    · intro c hc
      by_cases hce : c = l ^^^ 1
      · have hget : s2.watch.getD c 0 = m := by
          rw [hs2, hce]
          exact getD_set_lt _ _ _ _ (by rw [inv.watch_len]; omega)
        have hh : headOf s2 (.b2 (d + 1)) c = m := by
          simpa only [headOf] using hget
        rw [hh, hce, htail]
        exact .nil
      · have hget : s2.watch.getD c 0 = s.watch.getD c 0 := by
          rw [hs2]
          exact getD_set_ne _ _ _ (fun h => hce h.symm)
        have hh : headOf s2 (.b2 (d + 1)) c = headOf s (.b3 d l j) c := by
          simp only [headOf]
          rw [if_neg hce]
          exact hget
        rw [hh]
        exact inv.chain c hc
    · intro c hc hex hne
      by_cases hce : c = l ^^^ 1
      · exact absurd (hce ▸ htail) hne
      · have := inv.nf c hc (by simpa [exemptOf] using fun h => hce h.symm) hne
        simpa [assigned] using this
  · have htl0 : tlOf ch (.b3 d l j) = 0 := by simp [tlOf, exemptOf, htail]
    simp only [meas, tlOf, exemptOf, htl0]
    rw [pend_succ]
    set q : Nat := if s.move.getD d 0 < 2 then Cst m + Bc m (n - d - 1) else 0 with hq
    have : n - (d + 1) = n - d - 1 := by omega
    rw [this]
    omega

/-! ### Preservation: the B3 replacement step (chain surgery) -/

theorem stepB3_found {F : List (List Int)} {m n p : Nat} {s : St} {ch : Nat → List Nat}
    {d l j k : Nat} (fok : FOK F m n p) (inv : Inv F m n p s (.b3 d l j) ch)
    (hj : j < m)
    (hscan : scanRepl s.literals s.move d
      (s.start.getD (j + 1) 0 - (s.start.getD j 0 + 1)) (s.start.getD j 0 + 1) = some k) :
    ∃ s3 ch2, step m n s (.b3 d l j) = .inl (s3, .b3 d l (s.next.getD j 0)) ∧
      Inv F m n p s3 (.b3 d l (s.next.getD j 0)) ch2 ∧
      meas m n s3.move (tlOf ch2 (.b3 d l (s.next.getD j 0))) (.b3 d l (s.next.getD j 0))
        < meas m n s.move (tlOf ch (.b3 d l j)) (.b3 d l j) := by
  obtain ⟨hdn, hleq⟩ := inv.pc_ok d l j rfl
  have hmF : m = F.length := fok.m_eq
  have hjF : j < F.length := by rw [← fok.m_eq]; exact hj
  have hb : s.move.getD d 0 % 2 < 2 := by omega
  have hl1 : l ^^^ 1 = 2 * d + (1 - s.move.getD d 0 % 2) := by
    rw [hleq]; exact xor_one_lo _ _ hb
  have hlc : l ^^^ 1 < 2 * n := by omega
  set i := s.start.getD j 0 with hidef
  set iP := s.start.getD (j + 1) 0 with hiPdef
  set jP := s.next.getD j 0 with hjPdef
  set lp := s.literals.getD k 0 with hlpdef
  -- facts from the scan
  obtain ⟨hk1, hk2, hkNF⟩ := scanRepl_some_spec _ _ _ hscan
  have hiv : i = startF F j := inv.start_eq j (by omega)
  have hiPv : iP = startF F (j + 1) := inv.start_eq (j + 1) (by omega)
  have hclen1 : 0 < clen F j := by
    have hne := fok.nonempty _ (getD_mem_of_lt hjF)
    simpa [clen, List.length_pos_iff_ne_nil] using hne
  have hiPc : iP = i + clen F j := by
    rw [hiv, hiPv, startF_succ hjF]
  have hkiP : i + 1 ≤ k ∧ k < iP := by
    constructor
    · omega
    · omega
  -- the drained chain
  have hchainTail : IsChain s.next m j (ch (l ^^^ 1)) := by
    have := inv.chain (l ^^^ 1) hlc
    simpa [headOf] using this
  obtain ⟨rest, htail, hrest⟩ :
      ∃ rest, ch (l ^^^ 1) = j :: rest ∧ IsChain s.next m jP rest := by
    rcases hchainTail.head_cases with ⟨habs, _⟩ | ⟨_, cs2, heq, hch2⟩
    · omega
    · exact ⟨cs2, heq, hch2⟩
  have hjtail : j ∈ ch (l ^^^ 1) := by rw [htail]; simp
  have hjrest : j ∉ rest := by
    have := inv.nodup (l ^^^ 1)
    rw [htail] at this
    exact (List.nodup_cons.mp this).1
  have hrestmem : ∀ x ∈ rest, x ∈ ch (l ^^^ 1) := by
    intro x hx; rw [htail]; simp [hx]
  -- first literal of clause j is the drained literal
  have hfl : firstLit s j = l ^^^ 1 := (inv.watches _ j hjtail).2
  have hfli : s.literals.getD i 0 = l ^^^ 1 := by
    unfold firstLit at hfl
    rw [← hidef] at hfl
    exact hfl
  -- the replacement literal is a valid code of the clause
  have hkwin : lp ∈ window s.literals (startF F j) (clen F j) := by
    rw [hlpdef, ← hiv]
    exact window_slot _ _ _ _ (by omega) (by omega)
  have hlpEC : lp ∈ EC F j := ((inv.wperm j hj).mem_iff).mp hkwin
  obtain ⟨L0, hL0, hL0e⟩ := List.mem_map.mp hlpEC
  have hlpn : lp < 2 * n := by
    rw [← hL0e]
    exact encodeLit_lt (fok.nz _ (getD_mem_of_lt hjF) _ hL0)
      (fok.vbound _ (getD_mem_of_lt hjF) _ hL0)
  have hlpne : lp ≠ l ^^^ 1 := by
    intro hcontr
    have hkNF2 := hkNF
    rw [← hlpdef, hcontr] at hkNF2
    unfold NF at hkNF2
    have hdiv : (l ^^^ 1) / 2 = d := by omega
    rw [hdiv] at hkNF2
    omega
  have hjnotlp : j ∉ ch lp := fun hc => inv.disj _ _ hlpne j hc hjtail
  -- the new state
  set lits2 := (s.literals.set i lp).set k (l ^^^ 1) with hlits2
  set nx2 := s.next.set j (s.watch.getD lp 0) with hnx2
  set w2 := s.watch.set lp j with hw2
  set s3 : St := { s with literals := lits2, next := nx2, watch := w2 } with hs3
  set ch2 : Nat → List Nat :=
    fun c => if c = lp then j :: ch lp else if c = l ^^^ 1 then rest else ch c with hch2
  have hch2lp : ch2 lp = j :: ch lp := by simp [hch2]
  have hch2l1 : ch2 (l ^^^ 1) = rest := by
    simp only [hch2]
    rw [if_neg (fun h : l ^^^ 1 = lp => hlpne h.symm)]
    simp
  have hch2other : ∀ c, c ≠ lp → c ≠ l ^^^ 1 → ch2 c = ch c := by
    intro c h1 h2
    simp only [hch2]
    rw [if_neg h1, if_neg h2]
  have hstep : step m n s (.b3 d l j) = .inl (s3, .b3 d l jP) := by
    simp only [step, if_pos hj]
    rw [← hidef, ← hiPdef, hscan]
  -- position bounds
  have hip : i < p := by
    have h1 : startF F j + clen F j ≤ startF F F.length :=
      startF_next_le (by omega) le_rfl
    have h2 : startF F F.length = (F.map List.length).sum := startF_top F
    rw [hiv]
    have := fok.p_eq
    omega
  have hkp : k < p := by
    have h1 : startF F (j + 1) ≤ startF F F.length := startF_mono (by omega) le_rfl
    have h2 : startF F F.length = (F.map List.length).sum := startF_top F
    have := fok.p_eq
    rw [hiPv] at hkiP
    omega
  have hik : i ≠ k := by omega
  -- individual slots of the new literals array
  have hlits2i : lits2.getD i 0 = lp := by
    rw [hlits2, getD_set_ne _ _ _ (fun h => hik h.symm),
      getD_set_lt _ _ _ _ (by rw [inv.lits_len]; exact hip)]
  have hlits2k : lits2.getD k 0 = l ^^^ 1 := by
    rw [hlits2, getD_set_lt _ _ _ _ (by simp [inv.lits_len]; exact hkp)]
  have hlits2other : ∀ x, x ≠ i → x ≠ k → lits2.getD x 0 = s.literals.getD x 0 := by
    intro x h1 h2
    rw [hlits2, getD_set_ne _ _ _ (fun h => h2 h.symm),
      getD_set_ne _ _ _ (fun h => h1 h.symm)]
  -- windows of other clauses are untouched
  have hwin_other : ∀ j2, j2 < m → j2 ≠ j →
      window lits2 (startF F j2) (clen F j2)
        = window s.literals (startF F j2) (clen F j2) := by
    intro j2 hj2 hj2ne
    apply List.map_congr_left
    intro x hx
    obtain ⟨hxa, hxb⟩ := List.mem_range'_1.mp hx
    have hxout : x ≠ i ∧ x ≠ k := by
      rcases Nat.lt_or_ge j2 j with hlt | hge
      · have hend : startF F j2 + clen F j2 ≤ startF F j :=
          startF_next_le hlt (by omega)
        constructor <;> omega
      · have hj2gt : j < j2 := by omega
        have hend : startF F (j + 1) ≤ startF F j2 :=
          startF_mono (by omega) (by omega)
        constructor <;> omega
    exact hlits2other x hxout.1 hxout.2
  -- clause j's window is permuted by the swap
  have hwin_j : (window lits2 (startF F j) (clen F j)).Perm
      (window s.literals (startF F j) (clen F j)) := by
    apply map_swap_perm _ (List.nodup_range' _ _) _ _ i k
    · exact List.mem_range'_1.mpr ⟨by omega, by omega⟩
    · exact List.mem_range'_1.mpr ⟨by omega, by omega⟩
    · exact hik
    · rw [hlits2i, hlpdef]
    · rw [hlits2k, hfli]
    · intro x _ h1 h2
      exact hlits2other x h1 h2
  -- first literals
  have hfl3_j : firstLit s3 j = lp := by
    unfold firstLit
    show lits2.getD (s.start.getD j 0) 0 = lp
    rw [← hidef]
    exact hlits2i
  have hfl3_other : ∀ x, x < m → x ≠ j → firstLit s3 x = firstLit s x := by
    intro x hx hxne
    unfold firstLit
    show lits2.getD (s.start.getD x 0) 0 = s.literals.getD (s.start.getD x 0) 0
    have hxv : s.start.getD x 0 = startF F x := inv.start_eq x (by omega)
    have hclenx : 0 < clen F x := by
      have hne := fok.nonempty _ (getD_mem_of_lt (show x < F.length by omega))
      simpa [clen, List.length_pos_iff_ne_nil] using hne
    have hxout : startF F x ≠ i ∧ startF F x ≠ k := by
      rcases Nat.lt_or_ge x j with hlt | hge
      · have hend : startF F x + clen F x ≤ startF F j :=
          startF_next_le hlt (by omega)
        rw [hiv] at *
        constructor <;> omega
      · have hxgt : j < x := by omega
        have hend : startF F (j + 1) ≤ startF F x :=
          startF_mono (by omega) (by omega)
        rw [hiv, hiPv] at *
        constructor <;> omega
    rw [hxv]
    exact hlits2other _ hxout.1 hxout.2
  refine ⟨s3, ch2, hstep, ?_, ?_⟩
  · refine {
      frame := inv.frame
      lits_len := by rw [hs3]; show lits2.length = p; rw [hlits2]; simpa using inv.lits_len
      start_len := inv.start_len
      start_eq := inv.start_eq
      watch_len := by rw [hs3]; show w2.length = 2 * n; rw [hw2]; simpa using inv.watch_len
      next_len := by rw [hs3]; show nx2.length = m; rw [hnx2]; simpa using inv.next_len
      move_len := inv.move_len
      wperm := ?_
      move_lt := inv.move_lt
      chain := ?_
      chEmpty := ?_
      nodup := ?_
      disj := ?_
      cover := ?_
      watches := ?_
      d_le := inv.d_le
      pc_ok := ?_
      nf := ?_
      cinv := inv.cinv
      gfree := inv.gfree }
    · intro j2 hj2
      by_cases hj2j : j2 = j
      · subst hj2j
        exact hwin_j.trans (inv.wperm j2 hj2)
      · rw [show window s3.literals (startF F j2) (clen F j2)
            = window lits2 (startF F j2) (clen F j2) from rfl, hwin_other j2 hj2 hj2j]
        exact inv.wperm j2 hj2
    · intro c hc
      by_cases hclp : c = lp
      · -- new head of lp's chain is j
        have hhead : headOf s3 (.b3 d l jP) c = j := by
          simp only [headOf]
          rw [if_neg (by rw [hclp]; exact hlpne), hclp]
          show w2.getD lp 0 = j
          rw [hw2]
          exact getD_set_lt _ _ _ _ (by rw [inv.watch_len]; exact hlpn)
        rw [hhead, hclp, hch2lp]
        refine IsChain.cons hj ?_
        have hnxj : nx2.getD j 0 = s.watch.getD lp 0 := by
          rw [hnx2]
          exact getD_set_lt _ _ _ _ (by rw [inv.next_len]; exact hj)
        rw [hnxj]
        have hold : IsChain s.next m (s.watch.getD lp 0) (ch lp) := by
          have := inv.chain lp hlpn
          simpa [headOf, if_neg hlpne] using this
        exact hold.set_irrel (fun x hx he => hjnotlp (by rw [← he]; exact hx))
      · by_cases hcl1 : c = l ^^^ 1
        · have hhead : headOf s3 (.b3 d l jP) c = jP := by
            simp only [headOf]
            rw [if_pos hcl1]
          rw [hhead, hcl1, hch2l1]
          exact hrest.set_irrel (fun x hx he => hjrest (by rw [← he]; exact hx))
        · have hhead : headOf s3 (.b3 d l jP) c = s.watch.getD c 0 := by
            simp only [headOf]
            rw [if_neg hcl1]
            show w2.getD c 0 = s.watch.getD c 0
            rw [hw2]
            exact getD_set_ne _ _ _ (fun h => hclp h.symm)
          rw [hhead, hch2other c hclp hcl1]
          have hold : IsChain s.next m (s.watch.getD c 0) (ch c) := by
            have := inv.chain c hc
            simpa [headOf, if_neg hcl1] using this
          refine hold.set_irrel (fun x hx he => ?_)
          rw [he] at hx
          exact inv.disj _ _ (fun h : l ^^^ 1 = c => hcl1 h.symm) j hjtail hx
    · intro c hcge
      have h1 : c ≠ lp := fun h => hcge (by rw [h]; exact hlpn)
      have h2 : c ≠ l ^^^ 1 := fun h => hcge (by rw [h]; exact hlc)
      rw [hch2other c h1 h2]
      exact inv.chEmpty c hcge
    · intro c
      by_cases h1 : c = lp
      · rw [h1, hch2lp]
        exact List.nodup_cons.mpr ⟨hjnotlp, inv.nodup lp⟩
      · by_cases h2 : c = l ^^^ 1
        · rw [h2, hch2l1]
          have := inv.nodup (l ^^^ 1)
          rw [htail] at this
          exact (List.nodup_cons.mp this).2
        · rw [hch2other c h1 h2]
          exact inv.nodup c
    · intro c1 c2 hne x hx1 hx2
      -- reduce to membership facts about the old family
      have hmem2 : ∀ c, x ∈ ch2 c → (c = lp ∧ (x = j ∨ x ∈ ch lp))
          ∨ (c = l ^^^ 1 ∧ x ∈ rest) ∨ (c ≠ lp ∧ c ≠ l ^^^ 1 ∧ x ∈ ch c) := by
        intro c hxc
        by_cases h1 : c = lp
        · left
          rw [h1, hch2lp] at hxc
          exact ⟨h1, by simpa using hxc⟩
        · by_cases h2 : c = l ^^^ 1
          · right; left
            rw [h2, hch2l1] at hxc
            exact ⟨h2, hxc⟩
          · right; right
            rw [hch2other c h1 h2] at hxc
            exact ⟨h1, h2, hxc⟩
      have hold1 := hmem2 c1 hx1
      have hold2 := hmem2 c2 hx2
      -- x appears in exactly one old chain
      rcases hold1 with ⟨he1, hj1⟩ | ⟨he1, hj1⟩ | ⟨hne1a, hne1b, hj1⟩ <;>
        rcases hold2 with ⟨he2, hj2⟩ | ⟨he2, hj2⟩ | ⟨hne2a, hne2b, hj2⟩
      · exact hne (he1.trans he2.symm)
      · rcases hj1 with rfl | hj1
        · exact hjrest hj2
        · exact inv.disj lp (l ^^^ 1) hlpne x hj1 (hrestmem x hj2)
      · rcases hj1 with rfl | hj1
        · exact inv.disj (l ^^^ 1) c2 (fun h => hne2b h.symm) x hjtail hj2
        · exact inv.disj lp c2 (fun h => hne2a h.symm) x hj1 hj2
      · rcases hj2 with rfl | hj2
        · exact hjrest hj1
        · exact inv.disj (l ^^^ 1) lp (fun h => hlpne h.symm) x (hrestmem x hj1) hj2
      · exact hne (he1.trans he2.symm)
      · exact inv.disj (l ^^^ 1) c2 (fun h => hne2b h.symm) x (hrestmem x hj1) hj2
      · rcases hj2 with rfl | hj2
        · exact inv.disj (l ^^^ 1) c1 (fun h => hne1b h.symm) x hjtail hj1
        · exact inv.disj c1 lp hne1a x hj1 hj2
      · exact inv.disj c1 (l ^^^ 1) hne1b x hj1 (hrestmem x hj2)
      · exact inv.disj c1 c2 hne x hj1 hj2
    · intro j2 hj2
      by_cases hj2j : j2 = j
      · exact ⟨lp, hlpn, by rw [hj2j, hch2lp]; simp⟩
      · obtain ⟨c, hc, hxc⟩ := inv.cover j2 hj2
        by_cases h1 : c = lp
        · exact ⟨lp, hlpn, by rw [hch2lp]; simp [h1 ▸ hxc]⟩
        · by_cases h2 : c = l ^^^ 1
          · refine ⟨l ^^^ 1, hlc, ?_⟩
            rw [hch2l1]
            have : j2 ∈ ch (l ^^^ 1) := h2 ▸ hxc
            rw [htail] at this
            rcases List.mem_cons.mp this with rfl | hmem
            · exact absurd rfl hj2j
            · exact hmem
          · exact ⟨c, hc, by rw [hch2other c h1 h2]; exact hxc⟩
    · intro c x hx
      by_cases h1 : c = lp
      · rw [h1, hch2lp] at hx
        rcases List.mem_cons.mp hx with rfl | hx2
        · exact ⟨hj, by rw [hfl3_j, h1]⟩
        · obtain ⟨hxm, hfx⟩ := inv.watches lp x hx2
          have hxj : x ≠ j := fun h => hjnotlp (h ▸ hx2)
          exact ⟨hxm, by rw [hfl3_other x hxm hxj, hfx, h1]⟩
      · by_cases h2 : c = l ^^^ 1
        · rw [h2, hch2l1] at hx
          obtain ⟨hxm, hfx⟩ := inv.watches (l ^^^ 1) x (hrestmem x hx)
          have hxj : x ≠ j := fun h => hjrest (h ▸ hx)
          exact ⟨hxm, by rw [hfl3_other x hxm hxj, hfx, h2]⟩
        · rw [hch2other c h1 h2] at hx
          obtain ⟨hxm, hfx⟩ := inv.watches c x hx
          have hxj : x ≠ j := fun h => by
            subst h
            exact inv.disj _ _ (fun hle : l ^^^ 1 = c => h2 hle.symm) x hjtail hx
          exact ⟨hxm, by rw [hfl3_other x hxm hxj, hfx]⟩
    · intro d2 l2 j2 heq
      injection heq with e1 e2 e3
      subst e1; subst e2
      exact ⟨hdn, hleq⟩
    · intro c hc hcex hcne
      by_cases h1 : c = lp
      · have hthis := hkNF
        rw [← hlpdef] at hthis
        rw [h1]
        simpa [assigned] using hthis
      · by_cases h2 : c = l ^^^ 1
        · exfalso
          apply hcex
          simp only [exemptOf]
          rw [h2]
        · rw [hch2other c h1 h2] at hcne
          have hthis := inv.nf c hc
            (by
              intro hcontr
              simp only [exemptOf, Option.some.injEq] at hcontr
              exact h2 hcontr.symm) hcne
          simpa [assigned] using hthis
  · simp only [meas, tlOf, exemptOf]
    rw [hch2l1, htail]
    simp only [List.length_cons]
    omega

/-! ### Descending through exhausted levels -/

theorem CInv_mono {F : List (List Int)} {mv : List Nat} {dd1 dd2 : Nat}
    (h : dd1 ≤ dd2) (hc : CInv F mv dd2) : CInv F mv dd1 :=
  fun i hi => hc i (by omega)

theorem Follows_succ {τ : Nat → Bool} {mv : List Nat} {dd : Nat} :
    Follows τ mv (dd + 1) ↔ Follows τ mv dd ∧ τ dd = decide (mv.getD dd 0 % 2 = 0) := by
  constructor
  · intro h
    exact ⟨fun v hv => h v (by omega), h dd (by omega)⟩
  · rintro ⟨h1, h2⟩ v hv
    rcases Nat.lt_succ_iff_lt_or_eq.mp hv with hv2 | rfl
    · exact h1 v hv2
    · exact h2

theorem decide_flip {a : Nat} : decide ((a + 1) % 2 = 0) = !decide (a % 2 = 0) := by
  by_cases hp : a % 2 = 0
  · have h2 : ¬ ((a + 1) % 2 = 0) := by omega
    simp [hp, h2]
  · have h2 : (a + 1) % 2 = 0 := by omega
    simp [hp, h2]

theorem noExt_down {F : List (List Int)} {mv : List Nat} {d2 : Nat}
    (hcinv : CInv F mv (d2 + 1)) (hge : 2 ≤ mv.getD d2 0)
    (hnq : ¬ ∃ τ, Follows τ mv (d2 + 1) ∧ satF F τ) :
    ¬ ∃ τ, Follows τ mv d2 ∧ satF F τ := by
  rintro ⟨τ, hfol, hsat⟩
  by_cases hτ : τ d2 = decide (mv.getD d2 0 % 2 = 0)
  · exact hnq ⟨τ, Follows_succ.mpr ⟨hfol, hτ⟩, hsat⟩
  · apply hcinv d2 (by omega) hge
    refine ⟨τ, hfol, ?_, hsat⟩
    rw [decide_flip]
    cases hb : τ d2 <;> cases hd : decide (mv.getD d2 0 % 2 = 0) <;> simp_all

theorem noExt_down_many {F : List (List Int)} {mv : List Nat} {d2 : Nat}
    (hcinv : CInv F mv (d2 + 1)) :
    ∀ t e, e + t = d2 + 1 →
      (∀ i, e ≤ i → i ≤ d2 → 2 ≤ mv.getD i 0) →
      (¬ ∃ τ, Follows τ mv (d2 + 1) ∧ satF F τ) →
      ¬ ∃ τ, Follows τ mv e ∧ satF F τ := by
  intro t
  induction t with
  | zero =>
    intro e he _ hnq
    rw [show e = d2 + 1 by omega]
    exact hnq
  | succ t ih =>
    intro e he hpop hnq
    have hnq1 : ¬ ∃ τ, Follows τ mv (e + 1) ∧ satF F τ :=
      ih (e + 1) (by omega) (fun i h1 h2 => hpop i (by omega) h2) hnq
    exact noExt_down (CInv_mono (by omega) hcinv) (hpop e le_rfl (by omega)) hnq1

theorem pend_stable {m n : Nat} {mv : List Nat} :
    ∀ d2 e2, e2 ≤ d2 → (∀ i, e2 ≤ i → i < d2 → 2 ≤ mv.getD i 0) →
      pend m n mv d2 = pend m n mv e2 := by
  intro d2
  induction d2 with
  | zero =>
    intro e2 he _
    rw [show e2 = 0 by omega]
  | succ d2 ih =>
    intro e2 he hpop
    rcases Nat.eq_or_lt_of_le he with rfl | hlt
    · rfl
    · rw [pend_succ, if_neg (by have := hpop d2 (by omega) (by omega); omega),
        ih e2 (by omega) (fun i h1 h2 => hpop i h1 (by omega))]
      omega

theorem Bc_pos (m : Nat) : ∀ k, 1 ≤ Bc m k := by
  intro k
  cases k with
  | zero => exact le_rfl
  | succ k => rw [Bc_succ]; omega

/-! ### Preservation: the B3 no-replacement step (B6 backtrack and B5 retry) -/

theorem step_b3_eq_fail {m n : Nat} {s : St} {d l j : Nat} (hj : j < m)
    (hscan : scanRepl s.literals s.move d
      (s.start.getD (j + 1) 0 - (s.start.getD j 0 + 1)) (s.start.getD j 0 + 1) = none) :
    step m n s (.b3 d l j) =
      (match backjump s.move d with
       | none => .inr (.unsat, { s with watch := s.watch.set (l ^^^ 1) j })
       | some e =>
         .inl ({ s with watch := s.watch.set (l ^^^ 1) j,
                        move := s.move.set e (s.move.getD e 0 ^^^ 3) },
               .b3 e (2 * e + (s.move.getD e 0 ^^^ 3) % 2)
                 ((s.watch.set (l ^^^ 1) j).getD
                   ((2 * e + (s.move.getD e 0 ^^^ 3) % 2) ^^^ 1) 0))
        : (St × PC) ⊕ (Res × St)) := by
  simp only [step, if_pos hj]
  rw [hscan]

theorem stepB3_fail {F : List (List Int)} {m n p : Nat} {s : St} {ch : Nat → List Nat}
    {d l j : Nat} (fok : FOK F m n p) (inv : Inv F m n p s (.b3 d l j) ch)
    (hj : j < m)
    (hscan : scanRepl s.literals s.move d
      (s.start.getD (j + 1) 0 - (s.start.getD j 0 + 1)) (s.start.getD j 0 + 1) = none) :
    (∃ s1, step m n s (.b3 d l j) = .inr (.unsat, s1) ∧ (∀ τ, ¬ satF F τ)
      ∧ s1.formula = F)
    ∨ (∃ s2 pc2 ch2, step m n s (.b3 d l j) = .inl (s2, pc2) ∧ Inv F m n p s2 pc2 ch2 ∧
        meas m n s2.move (tlOf ch2 pc2) pc2
          < meas m n s.move (tlOf ch (.b3 d l j)) (.b3 d l j)) := by
  obtain ⟨hdn, hleq⟩ := inv.pc_ok d l j rfl
  have hmF : m = F.length := fok.m_eq
  have hjF : j < F.length := by rw [← fok.m_eq]; exact hj
  have hb : s.move.getD d 0 % 2 < 2 := by omega
  have hl1 : l ^^^ 1 = 2 * d + (1 - s.move.getD d 0 % 2) := by
    rw [hleq]; exact xor_one_lo _ _ hb
  have hlc : l ^^^ 1 < 2 * n := by omega
  set i := s.start.getD j 0 with hidef
  set iP := s.start.getD (j + 1) 0 with hiPdef
  have hiv : i = startF F j := inv.start_eq j (by omega)
  have hiPv : iP = startF F (j + 1) := inv.start_eq (j + 1) (by omega)
  have hclen1 : 0 < clen F j := by
    have hne := fok.nonempty _ (getD_mem_of_lt hjF)
    simpa [clen, List.length_pos_iff_ne_nil] using hne
  have hiPc : iP = i + clen F j := by
    rw [hiv, hiPv, startF_succ hjF]
  -- the drained chain is non-empty (headed by j)
  have hchainTail : IsChain s.next m j (ch (l ^^^ 1)) := by
    have := inv.chain (l ^^^ 1) hlc
    simpa [headOf] using this
  have htl1 : 1 ≤ (ch (l ^^^ 1)).length := by
    rcases hchainTail.head_cases with ⟨habs, _⟩ | ⟨_, cs2, heq, _⟩
    · omega
    · rw [heq]; simp
  have hjtail : j ∈ ch (l ^^^ 1) := by
    rcases hchainTail.head_cases with ⟨habs, _⟩ | ⟨_, cs2, heq, _⟩
    · omega
    · rw [heq]; simp
  have hfl : firstLit s j = l ^^^ 1 := (inv.watches _ j hjtail).2
  have hfli : s.literals.getD i 0 = l ^^^ 1 := by
    unfold firstLit at hfl
    rw [← hidef] at hfl
    exact hfl
  -- every literal of clause j is false when d+1 variables are assigned
  have hwinfail : ∀ x ∈ window s.literals (startF F j) (clen F j),
      ¬ NF s.move (d + 1) x := by
    intro x hx
    obtain ⟨q, hq1, hq2, hqe⟩ := window_members _ _ _ x hx
    by_cases hqi : q = startF F j
    · rw [← hqe, hqi, ← hiv, hfli]
      unfold NF
      have hdiv : (l ^^^ 1) / 2 = d := by omega
      rw [hdiv]
      omega
    · rw [← hqe]
      exact scanRepl_none_spec _ _ hscan q (by omega) (by omega)
  have hECfail : ∀ code ∈ EC F j, ¬ NF s.move (d + 1) code := by
    intro code hcode
    exact hwinfail code (((inv.wperm j hj).mem_iff).mpr hcode)
  have hclausefalse : ∀ τ, Follows τ s.move (d + 1) →
      ∀ L ∈ F.getD j [], ¬ satLit τ L := by
    intro τ hfol L hL hsat
    have hcodeEC : encodeLit L ∈ EC F j := List.mem_map.mpr ⟨L, hL, rfl⟩
    have hNF := hECfail _ hcodeEC
    unfold NF at hNF
    rw [not_or] at hNF
    obtain ⟨h1, h2⟩ := hNF
    have hnz : L ≠ 0 := fok.nz _ (getD_mem_of_lt hjF) L hL
    have hvar : encodeLit L / 2 = L.natAbs - 1 := encodeLit_div2 L
    have hvlt : encodeLit L / 2 < d + 1 := by omega
    have h3 : τ (encodeLit L / 2) = decide (s.move.getD (encodeLit L / 2) 0 % 2 = 0) :=
      hfol _ hvlt
    unfold satLit at hsat
    rw [← hvar] at hsat
    have h4 : decide (s.move.getD (encodeLit L / 2) 0 % 2 = 0) = decide (0 < L) := by
      rw [← h3, hsat]
    have hmod := encodeLit_mod2 L
    by_cases hL0 : 0 < L
    · have hcode : encodeLit L % 2 = 0 := by rw [hmod]; simp [show ¬ L < 0 by omega]
      have h5 : s.move.getD (encodeLit L / 2) 0 % 2 = 0 := by
        simpa [hL0] using h4
      omega
    · have hcode : encodeLit L % 2 = 1 := by rw [hmod]; simp [show L < 0 by omega]
      have h5 : ¬ (s.move.getD (encodeLit L / 2) 0 % 2 = 0) := by
        simpa [hL0] using h4
      omega
  have hnoQ : ¬ ∃ τ, Follows τ s.move (d + 1) ∧ satF F τ := by
    rintro ⟨τ, hfol, hsat⟩
    obtain ⟨L, hL, hsatL⟩ := hsat (F.getD j []) (getD_mem_of_lt hjF)
    exact hclausefalse τ hfol L hL hsatL
  have hcinv : CInv F s.move (d + 1) := by
    have := inv.cinv
    simpa [assigned] using this
  have hstep0 := step_b3_eq_fail (n := n) (l := l) hj hscan
  set s1 : St := { s with watch := s.watch.set (l ^^^ 1) j } with hs1
  cases hbj : backjump s.move d with
  | none =>
    left
    refine ⟨s1, ?_, ?_, inv.frame⟩
    · rw [hstep0, hbj]
    · have hall := backjump_none_spec d hbj
      have hzero := noExt_down_many hcinv (d + 1) 0 (by omega)
        (fun i2 _ h2 => hall i2 h2) hnoQ
      intro τ hsat
      exact hzero ⟨τ, fun v hv => absurd hv (by omega), hsat⟩
  | some e =>
    right
    obtain ⟨hed, hlt2, hpop⟩ := backjump_some_spec d e hbj
    have hen : e < n := by omega
    set mvE := s.move.getD e 0 with hmvE
    set mv2v := mvE ^^^ 3 with hmv2v
    have hflip : mv2v = 3 - mvE := xor_three (by omega)
    set s2 : St := { s1 with move := s1.move.set e mv2v } with hs2
    set l2 := 2 * e + mv2v % 2 with hl2def
    have hl2v : l2 = 2 * e + (1 - mvE) := by omega
    have hl2c1 : l2 ^^^ 1 = 2 * e + mvE := by
      have := xor_one_lo e (1 - mvE) (by omega)
      rw [hl2v, this]
      omega
    have hl2n : l2 < 2 * n := by omega
    have hl2c1n : l2 ^^^ 1 < 2 * n := by omega
    have hl2c1_ne : l2 ^^^ 1 ≠ l ^^^ 1 := by
      rcases Nat.eq_or_lt_of_le hed with rfl | hlt
      · omega
      · omega
    set j2 := s2.watch.getD (l2 ^^^ 1) 0 with hj2def
    have hstep : step m n s (.b3 d l j) = .inl (s2, .b3 e l2 j2) := by
      rw [hstep0, hbj]
    -- accessors for the flipped state
    have hmv2get : s2.move.getD e 0 = mv2v := by
      show (s.move.set e mv2v).getD e 0 = mv2v
      exact getD_set_lt _ _ _ _ (by rw [inv.move_len]; omega)
    have hmvother : ∀ v, v ≠ e → s2.move.getD v 0 = s.move.getD v 0 := by
      intro v hv
      show (s.move.set e mv2v).getD v 0 = s.move.getD v 0
      exact getD_set_ne _ _ _ (fun h => hv h.symm)
    have hw1l1 : s1.watch.getD (l ^^^ 1) 0 = j := by
      show (s.watch.set (l ^^^ 1) j).getD (l ^^^ 1) 0 = j
      exact getD_set_lt _ _ _ _ (by rw [inv.watch_len]; omega)
    have hw1other : ∀ c, c ≠ l ^^^ 1 → s1.watch.getD c 0 = s.watch.getD c 0 := by
      intro c hce
      show (s.watch.set (l ^^^ 1) j).getD c 0 = s.watch.getD c 0
      exact getD_set_ne _ _ _ (fun h => hce h.symm)
    have hQe1 : ¬ ∃ τ, Follows τ s.move (e + 1) ∧ satF F τ :=
      noExt_down_many hcinv (d + 1 - (e + 1)) (e + 1) (by omega)
        (fun i2 h1 h2 => hpop i2 (by omega) h2) hnoQ
    refine ⟨s2, .b3 e l2 j2, ch, hstep, ?_, ?_⟩
    · refine {
        frame := inv.frame
        lits_len := inv.lits_len
        start_len := inv.start_len
        start_eq := inv.start_eq
        watch_len := by
          show (s.watch.set (l ^^^ 1) j).length = 2 * n
          simpa using inv.watch_len
        next_len := inv.next_len
        move_len := by
          show (s.move.set e mv2v).length = n
          simpa using inv.move_len
        wperm := inv.wperm
        move_lt := ?_
        chain := ?_
        chEmpty := inv.chEmpty
        nodup := inv.nodup
        disj := inv.disj
        cover := inv.cover
        watches := fun c x hx => inv.watches c x hx
        d_le := by simpa [assigned] using hen
        pc_ok := ?_
        nf := ?_
        cinv := ?_
        gfree := ?_ }
      · intro v
        by_cases hv : v = e
        · rw [hv, hmv2get]; omega
        · rw [hmvother v hv]; exact inv.move_lt v
      · intro c hc
        by_cases hc1 : c = l2 ^^^ 1
        · have hhead : headOf s2 (.b3 e l2 j2) c = s.watch.getD c 0 := by
            simp only [headOf]
            rw [if_pos hc1, hj2def, ← hc1]
            show s1.watch.getD c 0 = s.watch.getD c 0
            exact hw1other c (by rw [hc1]; exact hl2c1_ne)
          rw [hhead]
          have hold := inv.chain c hc
          rw [show headOf s (.b3 d l j) c = s.watch.getD c 0 by
            simp only [headOf]
            rw [if_neg (by rw [hc1]; exact hl2c1_ne)]] at hold
          exact hold
        · have hw2c : headOf s2 (.b3 e l2 j2) c = s1.watch.getD c 0 := by
            simp only [headOf]
            rw [if_neg hc1]
          by_cases hcl : c = l ^^^ 1
          · rw [hw2c, hcl, hw1l1]
            have hold := inv.chain c hc
            rw [show headOf s (.b3 d l j) c = j by
              simp only [headOf]
              rw [if_pos hcl]] at hold
            rw [hcl] at hold
            exact hold
          · rw [hw2c, hw1other c hcl]
            have hold := inv.chain c hc
            rw [show headOf s (.b3 d l j) c = s.watch.getD c 0 by
              simp only [headOf]
              rw [if_neg hcl]] at hold
            exact hold
      · intro d2 l2x j2x heq
        injection heq with e1 e2 e3
        subst e1; subst e2
        refine ⟨hen, ?_⟩
        rw [hmv2get]
      · intro c hc hcex hcne
        have hcexne : c ≠ l2 ^^^ 1 := by
          intro hcontr
          apply hcex
          simp only [exemptOf]
          rw [hcontr]
        unfold NF
        simp only [assigned]
        by_cases hcase1 : e + 1 ≤ c / 2
        · left; exact hcase1
        · by_cases hcase2 : c / 2 = e
          · have hc2 : c = l2 := by
              have hor : c = 2 * e ∨ c = 2 * e + 1 := by omega
              omega
            right
            have hg : s2.move.getD (c / 2) 0 = mv2v := by rw [hcase2]; exact hmv2get
            rw [hg, hc2]
            omega
          · have hclt : c / 2 < e := by omega
            have hcnl1 : c ≠ l ^^^ 1 := by omega
            have hold := inv.nf c hc
              (by
                intro hcontr
                simp only [exemptOf, Option.some.injEq] at hcontr
                exact hcnl1 hcontr.symm) hcne
            unfold NF at hold
            simp only [assigned] at hold
            have hg : s2.move.getD (c / 2) 0 = s.move.getD (c / 2) 0 :=
              hmvother _ (by omega)
            rcases hold with h | h
            · omega
            · right; rw [hg]; exact h
      · simp only [assigned]
        intro i2 hi2 hge2
        by_cases hie : i2 = e
        · rintro ⟨τ, hfolE, hτe, hsat⟩
          apply hQe1
          refine ⟨τ, Follows_succ.mpr ⟨?_, ?_⟩, hsat⟩
          · intro v hv
            rw [← hmvother v (by omega)]
            exact hfolE v (by omega)
          · have h1 := hτe
            rw [hie] at h1
            rw [h1, hmv2get]
            exact decide_eq_decide.mpr (by omega)
        · have hi2lt : i2 < e := by omega
          have hCe : CInv F s2.move e :=
            CInv_congr (fun v hv => hmvother v (by omega)) (CInv_mono (by omega) hcinv)
          exact hCe i2 hi2lt hge2
      · intro v hv hfree
        simp only [assigned] at hv
        by_cases hvd : v = e
        · have hfree2 : FreeVar F e := by rw [← hvd]; exact hfree
          have hold := inv.gfree e (by simp only [assigned]; omega) hfree2
          rw [hvd, hmv2get]
          omega
        · rw [hmvother v hvd]
          exact inv.gfree v (by simp only [assigned]; omega) hfree
    · have htl2 : (ch (l2 ^^^ 1)).length ≤ m := chain_tl_le inv _
      have hpend2 : pend m n s2.move e = pend m n s.move e :=
        pend_congr e (fun i2 hi2 => hmvother i2 (by omega))
      have hbcpos1 := Bc_pos m (n - d - 1)
      have hbcpos2 := Bc_pos m (n - e - 1)
      have hcst : Cst m = m + 2 := rfl
      simp only [meas, tlOf, exemptOf]
      rw [hmv2get, if_neg (by omega), hpend2]
      by_cases hede : e = d
      · have hdlt : s.move.getD d 0 < 2 := by
          rw [← hede, ← hmvE]; exact hlt2
        rw [if_pos hdlt]
        have hb1 : Bc m (n - e - 1) = Bc m (n - d - 1) := by rw [hede]
        have hp1 : pend m n s.move e = pend m n s.move d := by rw [hede]
        omega
      · have hedlt : e < d := by omega
        rw [if_neg (by have := hpop d (by omega) le_rfl; omega)]
        have hcollapse : pend m n s.move d = pend m n s.move (e + 1) :=
          pend_stable d (e + 1) (by omega) (fun i2 h1 h2 => hpop i2 (by omega) (by omega))
        rw [hcollapse, pend_succ, if_pos (by rw [← hmvE]; exact hlt2)]
        omega

/-! ### Run characterizations -/

theorem run_succ_inl {m n fuel : Nat} {s s2 : St} {pc pc2 : PC}
    (h : step m n s pc = .inl (s2, pc2)) :
    run m n (fuel + 1) s pc = run m n fuel s2 pc2 := by
  conv_lhs => rw [run]
  rw [h]

theorem run_succ_inr {m n fuel : Nat} {s sE : St} {pc : PC} {r : Res}
    (h : step m n s pc = .inr (r, sE)) :
    run m n (fuel + 1) s pc = some (r, sE) := by
  conv_lhs => rw [run]
  rw [h]

theorem meas_init_lt (m n : Nat) (mv : List Nat) (ch : Nat → List Nat) :
    meas m n mv (tlOf ch (.b2 0)) (.b2 0) < searchFuel m n := by
  simp only [meas, searchFuel, pend, Nat.sub_zero]
  omega

theorem solve_eq_of_scan {F : List (List Int)} {n p : Nat}
    (hsc : scanFormula F 0 0 = .ok (some (n, p))) :
    solve F = match run F.length n (searchFuel F.length n) (initSt F n) (.b2 0) with
      | some (.sat a, _) => .ok (some a)
      | some (.unsat, _) => .ok none
      | none => .error "fuel" := by
  unfold solve
  rw [hsc]

theorem solve_eq_of_scan_err {F : List (List Int)} {e : String}
    (hsc : scanFormula F 0 0 = .error e) : solve F = .error e := by
  unfold solve
  rw [hsc]

theorem solve_eq_of_scan_none {F : List (List Int)}
    (hsc : scanFormula F 0 0 = .ok none) : solve F = .ok none := by
  unfold solve
  rw [hsc]

/-! ### The terminal B2 state: the mapped assignment satisfies the formula -/

theorem to_dimacs_length (mv : List Nat) : (to_dimacs mv).length = mv.length := by
  simp [to_dimacs]

theorem to_dimacs_getD {mv : List Nat} {v : Nat} (hv : v < mv.length) :
    (to_dimacs mv).getD v 0 =
      (((v + 1 : Nat) : Int)) * (1 - 2 * (((mv.getD v 0 % 2 : Nat)) : Int)) := by
  unfold to_dimacs
  rw [List.getD_eq_getElem?_getD, List.getElem?_map]
  simp [List.getElem?_range, hv]

theorem code_true_litHolds {mv : List Nat} {n : Nat} {L : Int} (hlen : mv.length = n)
    (h0 : L ≠ 0) (hb : L.natAbs ≤ n)
    (ht : (encodeLit L + mv.getD (L.natAbs - 1) 0) % 2 = 0) :
    litHolds (to_dimacs mv) L := by
  have h1 : 1 ≤ L.natAbs := Int.natAbs_pos.mpr h0
  have hv : L.natAbs - 1 < mv.length := by omega
  unfold litHolds
  rw [to_dimacs_getD hv]
  have hmod := encodeLit_mod2 L
  have hNat : L.natAbs - 1 + 1 = L.natAbs := by omega
  by_cases hL : L < 0
  · rw [if_pos hL] at hmod
    have hm1 : mv.getD (L.natAbs - 1) 0 % 2 = 1 := by omega
    rw [hm1, hNat, Int.ofNat_natAbs_of_nonpos (by omega)]
    push_cast
    ring
  · rw [if_neg hL] at hmod
    have hm0 : mv.getD (L.natAbs - 1) 0 % 2 = 0 := by omega
    rw [hm0, hNat, Int.natAbs_of_nonneg (by omega)]
    push_cast
    ring

theorem code_true_satLit {mv : List Nat} {L : Int} (h0 : L ≠ 0)
    (ht : (encodeLit L + mv.getD (L.natAbs - 1) 0) % 2 = 0) :
    satLit (fun v => decide (mv.getD v 0 % 2 = 0)) L := by
  unfold satLit
  show decide (mv.getD (L.natAbs - 1) 0 % 2 = 0) = decide (0 < L)
  have hmod := encodeLit_mod2 L
  by_cases hL : L < 0
  · rw [if_pos hL] at hmod
    have hm1 : mv.getD (L.natAbs - 1) 0 % 2 = 1 := by omega
    exact decide_eq_decide.mpr (by omega)
  · rw [if_neg hL] at hmod
    have hm0 : mv.getD (L.natAbs - 1) 0 % 2 = 0 := by omega
    exact decide_eq_decide.mpr (by omega)

theorem b2_sat_clause {F : List (List Int)} {m n p : Nat} {s : St} {ch : Nat → List Nat}
    (fok : FOK F m n p) (inv : Inv F m n p s (.b2 n) ch) :
    ∀ i < F.length, ∃ L ∈ F.getD i [],
      (encodeLit L + s.move.getD (L.natAbs - 1) 0) % 2 = 0 := by
  intro i hiF
  have hmF : m = F.length := fok.m_eq
  have him : i < m := by omega
  obtain ⟨c, hc2n, hmem⟩ := inv.cover i him
  obtain ⟨_, hfl⟩ := inv.watches c i hmem
  have hnf := inv.nf c hc2n (by simp [exemptOf])
    (by intro hnil; rw [hnil] at hmem; cases hmem)
  have hcd : (c + s.move.getD (c / 2) 0) % 2 = 0 := by
    unfold NF at hnf
    simp only [assigned] at hnf
    rcases hnf with h | h
    · omega
    · exact h
  have hclen : 0 < clen F i := by
    have := fok.nonempty _ (getD_mem_of_lt hiF)
    simpa [clen, List.length_pos_iff_ne_nil] using this
  have hfl2 : firstLit s i ∈ window s.literals (startF F i) (clen F i) := by
    unfold firstLit
    rw [inv.start_eq i (by omega)]
    exact window_slot _ _ _ _ le_rfl (by omega)
  have hEC : c ∈ EC F i := by
    rw [← hfl]
    exact (inv.wperm i him).mem_iff.mp hfl2
  obtain ⟨L, hL, hLc⟩ := List.mem_map.mp hEC
  refine ⟨L, hL, ?_⟩
  have hdiv : encodeLit L / 2 = L.natAbs - 1 := encodeLit_div2 L
  rw [← hLc, hdiv] at hcd
  exact hcd

theorem b2_sat_tau {F : List (List Int)} {m n p : Nat} {s : St} {ch : Nat → List Nat}
    (fok : FOK F m n p) (inv : Inv F m n p s (.b2 n) ch) :
    satF F (fun w => decide (s.move.getD w 0 % 2 = 0)) := by
  intro cl hcl
  obtain ⟨i, hiF, hieq⟩ := List.mem_iff_getElem.mp hcl
  have hgd : F.getD i [] = cl := by rw [List.getD_eq_getElem _ _ hiF]; exact hieq
  obtain ⟨L, hL, ht⟩ := b2_sat_clause fok inv i hiF
  refine ⟨L, by rw [← hgd]; exact hL, ?_⟩
  exact code_true_satLit (fok.nz _ (getD_mem_of_lt hiF) L hL) ht

theorem b2_sat_free {F : List (List Int)} {m n p : Nat} {s : St} {ch : Nat → List Nat}
    (fok : FOK F m n p) (inv : Inv F m n p s (.b2 n) ch) :
    ∀ v < n, FreeVar F v → s.move.getD v 0 = 1 := by
  intro v hv hfree
  rcases inv.gfree v (by simpa [assigned] using hv) hfree with h1 | h2
  · exact h1
  exfalso
  have hτ := b2_sat_tau fok inv
  have hcinv := inv.cinv
  simp only [assigned] at hcinv
  refine hcinv v hv (by omega)
    ⟨fun w => if w = v then decide ((s.move.getD v 0 + 1) % 2 = 0)
      else decide (s.move.getD w 0 % 2 = 0), ?_, ?_, ?_⟩
  · intro w hw
    simp only [if_neg (show w ≠ v by omega)]
  · simp
  · intro cl hcl
    obtain ⟨L, hL, hsl⟩ := hτ cl hcl
    refine ⟨L, hL, ?_⟩
    unfold satLit at hsl ⊢
    have h0 : L ≠ 0 := fok.nz cl hcl L hL
    have hna : L.natAbs ≠ v + 1 := hfree cl hcl L hL
    have h1a : 1 ≤ L.natAbs := Int.natAbs_pos.mpr h0
    have hne : L.natAbs - 1 ≠ v := by omega
    simp only [if_neg hne]
    exact hsl

/-! ### The master run lemma: soundness, completeness, and termination -/

theorem run_ok {F : List (List Int)} {m n p : Nat} (fok : FOK F m n p) :
    ∀ fuel (s : St) (pc : PC) (ch : Nat → List Nat), Inv F m n p s pc ch →
      meas m n s.move (tlOf ch pc) pc < fuel →
      ∃ r sE, run m n fuel s pc = some (r, sE) ∧
        ((∃ a, r = .sat a ∧ a.length = n ∧
            (∀ c ∈ F, ∃ L ∈ c, litHolds a L) ∧
            (∀ v < n, FreeVar F v → a.getD v 0 = -((v : Int) + 1)))
         ∨ (r = .unsat ∧ ∀ τ, ¬ satF F τ)) := by
  intro fuel
  induction fuel with
  | zero =>
    intro s pc ch inv hm
    exact absurd hm (Nat.not_lt_zero _)
  | succ fuel ih =>
    intro s pc ch inv hm
    cases pc with
    | b2 d =>
      by_cases hd : d < n
      · obtain ⟨s2, pc2, hstep, inv2, hlt⟩ := stepB2 fok inv hd
        rw [run_succ_inl hstep]
        exact ih s2 pc2 ch inv2 (by omega)
      · have hdn : d = n := by
          have := inv.d_le
          simp only [assigned] at this
          omega
        rw [hdn] at inv
        have hstep : step m n s (.b2 d) = .inr (.sat (to_dimacs s.move), s) := by
          simp only [step, if_neg hd]
        refine ⟨.sat (to_dimacs s.move), s, run_succ_inr hstep, .inl
          ⟨to_dimacs s.move, rfl, ?_, ?_, ?_⟩⟩
        · rw [to_dimacs_length, inv.move_len]
        · intro cl hcl
          obtain ⟨i, hiF, hieq⟩ := List.mem_iff_getElem.mp hcl
          have hgd : F.getD i [] = cl := by rw [List.getD_eq_getElem _ _ hiF]; exact hieq
          obtain ⟨L, hL, ht⟩ := b2_sat_clause fok inv i hiF
          refine ⟨L, by rw [← hgd]; exact hL, ?_⟩
          exact code_true_litHolds inv.move_len
            (fok.nz _ (getD_mem_of_lt hiF) L hL)
            (fok.vbound _ (getD_mem_of_lt hiF) L hL) ht
        · intro v hv hfree
          have h1 := b2_sat_free fok inv v hv hfree
          rw [to_dimacs_getD (by rw [inv.move_len]; exact hv), h1]
          have h12 : (1 : Nat) % 2 = 1 := rfl
          rw [h12]
          push_cast
          ring
    | b3 d l j =>
      by_cases hj : j < m
      · cases hscan : scanRepl s.literals s.move d
          (s.start.getD (j + 1) 0 - (s.start.getD j 0 + 1)) (s.start.getD j 0 + 1) with
        | some k =>
          obtain ⟨s3, ch2, hstep, inv2, hlt⟩ := stepB3_found fok inv hj hscan
          rw [run_succ_inl hstep]
          exact ih _ _ ch2 inv2 (by omega)
        | none =>
          rcases stepB3_fail fok inv hj hscan with
            ⟨s1, hstep, hunsat, _⟩ | ⟨s2, pc2, ch2, hstep, inv2, hlt⟩
          · exact ⟨.unsat, s1, run_succ_inr hstep, .inr ⟨rfl, hunsat⟩⟩
          · rw [run_succ_inl hstep]
            exact ih _ _ ch2 inv2 (by omega)
      · obtain ⟨s2, hstep, inv2, hlt⟩ := stepB3_exit fok inv hj
        rw [run_succ_inl hstep]
        exact ih _ _ ch inv2 (by omega)

/-! ### Invariant preservation along `stepIter` -/

theorem step_preserves {F : List (List Int)} {m n p : Nat} (fok : FOK F m n p)
    {s : St} {pc : PC} {ch : Nat → List Nat} {s2 : St} {pc2 : PC}
    (inv : Inv F m n p s pc ch) (h : step m n s pc = .inl (s2, pc2)) :
    ∃ ch2, Inv F m n p s2 pc2 ch2 := by
  cases pc with
  | b2 d =>
    by_cases hd : d < n
    · obtain ⟨s2x, pc2x, hstep, inv2, _⟩ := stepB2 fok inv hd
      have he := h.symm.trans hstep
      injection he with he2
      injection he2 with ha hb
      rw [ha, hb]
      exact ⟨ch, inv2⟩
    · simp only [step, if_neg hd] at h
      exact Sum.noConfusion h
  | b3 d l j =>
    by_cases hj : j < m
    · cases hscan : scanRepl s.literals s.move d
        (s.start.getD (j + 1) 0 - (s.start.getD j 0 + 1)) (s.start.getD j 0 + 1) with
      | some k =>
        obtain ⟨s3, ch2, hstep, inv2, _⟩ := stepB3_found fok inv hj hscan
        have he := h.symm.trans hstep
        injection he with he2
        injection he2 with ha hb
        rw [ha, hb]
        exact ⟨ch2, inv2⟩
      | none =>
        rcases stepB3_fail fok inv hj hscan with
          ⟨s1, hstep, _, _⟩ | ⟨s2x, pc2x, ch2, hstep, inv2, _⟩
        · rw [h] at hstep
          cases hstep
        · have he := h.symm.trans hstep
          injection he with he2
          injection he2 with ha hb
          rw [ha, hb]
          exact ⟨ch2, inv2⟩
    · obtain ⟨s2x, hstep, inv2, _⟩ := stepB3_exit fok inv hj
      have he := h.symm.trans hstep
      injection he with he2
      injection he2 with ha hb
      rw [ha, hb]
      exact ⟨ch, inv2⟩

theorem stepIter_inv {F : List (List Int)} {n p : Nat} (fok : FOK F F.length n p) :
    ∀ k (s : St) (pc : PC), stepIter F.length n (initSt F n) k = .inl (s, pc) →
      ∃ ch, Inv F F.length n p s pc ch := by
  intro k
  induction k with
  | zero =>
    intro s pc h
    simp only [stepIter] at h
    injection h with h2
    injection h2 with ha hb
    rw [← ha, ← hb]
    exact ⟨ascCh F, init_inv F F.length n p fok⟩
  | succ k ih =>
    intro s pc h
    simp only [stepIter] at h
    cases hk : stepIter F.length n (initSt F n) k with
    | inl sp =>
      rw [hk] at h
      obtain ⟨ch, inv⟩ := ih sp.1 sp.2 (by rw [hk])
      exact step_preserves fok inv h
    | inr r =>
      rw [hk] at h
      cases h

/-! ### The solver-level specification claims -/

/-- C1.  Soundness of the watched-literal solver: whenever `solve`
returns an assignment `A` rather than the UNSAT marker, every clause of
the input formula contains at least one literal that is true under `A`. -/
theorem solve_sound {F : List (List Int)} {A : List Int}
    (h : solve F = .ok (some A)) :
    ∀ c ∈ F, ∃ L ∈ c, litHolds A L := by
  cases hsc : scanFormula F 0 0 with
  | error e =>
    rw [solve_eq_of_scan_err hsc] at h
    exact Except.noConfusion h
  | ok o =>
    cases o with
    | none =>
      rw [solve_eq_of_scan_none hsc] at h
      simp at h
    | some np =>
      obtain ⟨n, p⟩ := np
      have fok := FOK_of_scan hsc
      obtain ⟨r, sE, hrun, hpost⟩ := run_ok fok (searchFuel F.length n) _ _ _
        (init_inv F F.length n p fok) (meas_init_lt _ _ _ _)
      rw [solve_eq_of_scan hsc, hrun] at h
      cases r with
      | sat a =>
        have haA : a = A := by simpa using h
        rcases hpost with ⟨a2, heq, _, hsound, _⟩ | ⟨heq, _⟩
        · injection heq with ha2
          rw [← haA, ha2]
          exact hsound
        · exact Res.noConfusion heq
      | unsat => simp at h

/-- Witness for C1 on the formula `[[1,2],[-1,3],[-3,4],[1]]`, solved by
the assignment `[1,2,3,4]`. -/
theorem solve_sound_witness :
    solve [[(1 : Int), 2], [-1, 3], [-3, 4], [1]] = .ok (some [1, 2, 3, 4]) ∧
      ∃ L ∈ [(-1 : Int), 3], litHolds [1, 2, 3, 4] L :=
  ⟨rfl, solve_sound (F := [[(1 : Int), 2], [-1, 3], [-3, 4], [1]])
    (A := [1, 2, 3, 4])
    (rfl : solve [[(1 : Int), 2], [-1, 3], [-3, 4], [1]] = .ok (some [1, 2, 3, 4]))
    [(-1 : Int), 3] (by simp)⟩

/-- C2.  Completeness of the watched-literal solver: whenever `solve`
returns the UNSAT marker (`null`, here `.ok none`), no assignment of the
variables satisfies every clause of the formula. -/
theorem solve_complete {F : List (List Int)} (h : solve F = .ok none) :
    ∀ τ, ¬ satF F τ := by
  intro τ hτ
  cases hsc : scanFormula F 0 0 with
  | error e =>
    rw [solve_eq_of_scan_err hsc] at h
    exact Except.noConfusion h
  | ok o =>
    cases o with
    | none =>
      obtain ⟨c, hc, hce⟩ := scanFormula_none F 0 0 hsc
      obtain ⟨L, hL, _⟩ := hτ c hc
      rw [hce] at hL
      cases hL
    | some np =>
      obtain ⟨n, p⟩ := np
      have fok := FOK_of_scan hsc
      obtain ⟨r, sE, hrun, hpost⟩ := run_ok fok (searchFuel F.length n) _ _ _
        (init_inv F F.length n p fok) (meas_init_lt _ _ _ _)
      rw [solve_eq_of_scan hsc, hrun] at h
      cases r with
      | sat a => simp at h
      | unsat =>
        rcases hpost with ⟨a2, heq, _⟩ | ⟨_, hun⟩
        · exact Res.noConfusion heq
        · exact hun τ hτ

/-- Witness for C2 on the unsatisfiable formula `[[1],[-1]]`. -/
theorem solve_complete_witness :
    solve [[(1 : Int)], [-1]] = .ok none ∧
      ¬ satF [[(1 : Int)], [-1]] (fun _ => true) :=
  ⟨rfl, solve_complete (F := [[(1 : Int)], [-1]])
    (rfl : solve [[(1 : Int)], [-1]] = .ok none) (fun _ => true)⟩

/-- C3.  Watched-literal health invariant: at every reachable B2 entry
(depth `d`), every clause `i` of the formula watches the literal code
`ℓ = literals[start[i]]` in the sense that clause `i` lies on the chain
reached from `watch[ℓ]` by following `next` (a chain of at most `m`
clauses), and `ℓ` is never false under the partial assignment: its
variable is at least `d` (unassigned) or its phase agrees with `move`. -/
theorem watched_invariant {F : List (List Int)} {n p : Nat}
    (hscan : scanFormula F 0 0 = .ok (some (n, p)))
    {k d : Nat} {s : St}
    (hreach : stepIter F.length n (initSt F n) k = .inl (s, .b2 d)) :
    ∀ i < F.length, ∃ l2,
      firstLit s i = l2 ∧
      (∃ cs, IsChain s.next F.length (s.watch.getD l2 0) cs ∧ i ∈ cs ∧
        cs.length ≤ F.length) ∧
      (d ≤ l2 / 2 ∨ (l2 + s.move.getD (l2 / 2) 0) % 2 = 0) := by
  have fok := FOK_of_scan hscan
  obtain ⟨ch, inv⟩ := stepIter_inv fok k s (.b2 d) hreach
  intro i hiF
  obtain ⟨c, hc2n, hmem⟩ := inv.cover i hiF
  obtain ⟨_, hfl⟩ := inv.watches c i hmem
  refine ⟨c, hfl, ⟨ch c, ?_, hmem, chain_tl_le inv c⟩, ?_⟩
  · have := inv.chain c hc2n
    simpa [headOf] using this
  · have hnf := inv.nf c hc2n (by simp [exemptOf])
      (by intro hnil; rw [hnil] at hmem; cases hmem)
    unfold NF at hnf
    simpa [assigned] using hnf

/-- Witness for C3: the initial state of `[[1]]` at depth 0. -/
theorem watched_invariant_witness :
    ∃ l2, firstLit (initSt [[(1 : Int)]] 1) 0 = l2 ∧
      (∃ cs, IsChain (initSt [[(1 : Int)]] 1).next 1
          ((initSt [[(1 : Int)]] 1).watch.getD l2 0) cs ∧ 0 ∈ cs ∧
        cs.length ≤ 1) ∧
      (0 ≤ l2 / 2 ∨ (l2 + (initSt [[(1 : Int)]] 1).move.getD (l2 / 2) 0) % 2 = 0) :=
  watched_invariant (F := [[(1 : Int)]]) (n := 1) (p := 1) rfl (k := 0) (d := 0)
    (s := initSt [[(1 : Int)]] 1) rfl 0 (by decide)

/-- C4.  Termination: for every valid CNF formula the validation scan
succeeds, the search loop finishes within the explicit fuel
`searchFuel m n` (the measure `meas` strictly decreases on every internal
step, so the loop is well-founded), and `solve` returns an assignment or
the UNSAT marker — never the fuel marker. -/
theorem search_terminates {F : List (List Int)} (hv : Valid F) :
    ∃ n2 p2, scanFormula F 0 0 = .ok (some (n2, p2)) ∧
      (∃ r, run F.length n2 (searchFuel F.length n2) (initSt F n2) (.b2 0) = some r) ∧
      ∃ o, solve F = .ok o := by
  obtain ⟨⟨n2, p2⟩, hsc⟩ := scanFormula_ok 0 0
    (fun c hc => ⟨(hv c hc).1, fun L hL => Int.natAbs_pos.mpr ((hv c hc).2 L hL).1⟩)
  have fok := FOK_of_scan hsc
  obtain ⟨r, sE, hrun, _⟩ := run_ok fok (searchFuel F.length n2) _ _ _
    (init_inv F F.length n2 p2 fok) (meas_init_lt _ _ _ _)
  refine ⟨n2, p2, hsc, ⟨(r, sE), hrun⟩, ?_⟩
  rw [solve_eq_of_scan hsc, hrun]
  cases r with
  | sat a => exact ⟨some a, rfl⟩
  | unsat => exact ⟨none, rfl⟩

/-- Witness for C4 on the formula `[[1],[-1]]`. -/
theorem search_terminates_witness :
    ∃ n2 p2, scanFormula [[(1 : Int)], [-1]] 0 0 = .ok (some (n2, p2)) ∧
      (∃ r, run ([[(1 : Int)], [-1]] : List (List Int)).length n2
        (searchFuel ([[(1 : Int)], [-1]] : List (List Int)).length n2)
        (initSt [[(1 : Int)], [-1]] n2) (.b2 0) = some r) ∧
      ∃ o, solve [[(1 : Int)], [-1]] = .ok o :=
  search_terminates (F := [[(1 : Int)], [-1]]) (by unfold Valid; decide)

/-- The single bit `b` ored below an even number is a plain addition. -/
theorem two_mul_or_bit (d : Nat) (b : Bool) : 2 * d ||| b.toNat = 2 * d + b.toNat := by
  have h1 : 2 * d = Nat.bit false d := by simp [Nat.bit_val]
  have h2 : b.toNat = Nat.bit b 0 := by cases b <;> rfl
  rw [h1, h2, Nat.lor_bit]
  cases b <;> simp [Nat.bit_val]

/-- C8.  Phase-selection rule: at every arrival at B2 with `d < n` the
step sets `move[d]` to the single bit
`(watch[2d] ≥ m) OR (watch[2d+1] < m)` and enters the B3 drain with the
decision literal `l = 2d | move[d]` and cursor `watch[l ^ 1]`; this is
the only transition taken from a B2 point below the variable count. -/
theorem phase_rule {m n : Nat} (s : St) (d : Nat) (hd : d < n) :
    step m n s (.b2 d) =
      .inl
        ({ s with
            move := s.move.set d
                ((decide (m ≤ s.watch.getD (2 * d) 0) ||
                  decide (s.watch.getD (2 * d + 1) 0 < m)).toNat) },
          .b3 d
            (2 * d ||| (decide (m ≤ s.watch.getD (2 * d) 0) ||
              decide (s.watch.getD (2 * d + 1) 0 < m)).toNat)
            (s.watch.getD ((2 * d ||| (decide (m ≤ s.watch.getD (2 * d) 0) ||
              decide (s.watch.getD (2 * d + 1) 0 < m)).toNat) ^^^ 1) 0)) := by
  have hb : phase s.watch m d =
      (decide (m ≤ s.watch.getD (2 * d) 0) ||
        decide (s.watch.getD (2 * d + 1) 0 < m)).toNat := by
    unfold phase
    by_cases h1 : m ≤ s.watch.getD (2 * d) 0 ∨ s.watch.getD (2 * d + 1) 0 < m
    · rw [if_pos h1]
      rcases h1 with h | h
      · rw [decide_eq_true h]
        rfl
      · rw [decide_eq_true h, Bool.or_true]
        rfl
    · rw [if_neg h1]
      push_neg at h1
      rw [decide_eq_false (by omega : ¬ m ≤ s.watch.getD (2 * d) 0),
        decide_eq_false (by omega : ¬ s.watch.getD (2 * d + 1) 0 < m)]
      rfl
  simp only [step, if_pos hd]
  rw [hb, two_mul_or_bit]

/-- Witness for C8 at a concrete B2 state. -/
theorem phase_rule_witness :
    step 0 1 (⟨[], [], [], [], [], [0]⟩ : St) (.b2 0) =
      .inl ((⟨[], [], [], [], [], [1]⟩ : St), .b3 0 1 0) :=
  phase_rule (⟨[], [], [], [], [], [0]⟩ : St) 0 (by decide)

/-- C9.  Free variables come out negative: if `solve` returns an
assignment, every variable that occurs in no clause of the formula is
reported with its negative phase. -/
theorem solve_free_negative {F : List (List Int)} {A : List Int}
    (h : solve F = .ok (some A)) :
    ∀ v < A.length, FreeVar F v → A.getD v 0 = -((v : Int) + 1) := by
  cases hsc : scanFormula F 0 0 with
  | error e =>
    rw [solve_eq_of_scan_err hsc] at h
    exact Except.noConfusion h
  | ok o =>
    cases o with
    | none =>
      rw [solve_eq_of_scan_none hsc] at h
      simp at h
    | some np =>
      obtain ⟨n, p⟩ := np
      have fok := FOK_of_scan hsc
      obtain ⟨r, sE, hrun, hpost⟩ := run_ok fok (searchFuel F.length n) _ _ _
        (init_inv F F.length n p fok) (meas_init_lt _ _ _ _)
      rw [solve_eq_of_scan hsc, hrun] at h
      cases r with
      | sat a =>
        have haA : a = A := by simpa using h
        rcases hpost with ⟨a2, heq, hlen, _, hfree⟩ | ⟨heq, _⟩
        · injection heq with ha2
          intro v hv hfr
          rw [← haA]
          rw [← haA, ha2] at hv
          exact (ha2 ▸ hfree) v (by rw [← hlen]; exact hv) hfr
        · exact Res.noConfusion heq
      | unsat => simp at h

/-- Witness for C9: in `[[1,3]]` the variable 2 is free and is reported
as `-2`. -/
theorem solve_free_negative_witness :
    solve [[(1 : Int), 3]] = .ok (some [1, -2, -3]) ∧
      ([1, -2, -3] : List Int).getD 1 0 = -(((1 : Nat) : Int) + 1) :=
  ⟨rfl, solve_free_negative (F := [[(1 : Int), 3]]) (A := [1, -2, -3])
    (by rfl) 1 (by decide) (by unfold FreeVar; decide)⟩

/-! ### The frame property of the search -/

theorem step_formula {m n : Nat} (s : St) (pc : PC) :
    (match step m n s pc with
     | .inl sp => sp.1.formula
     | .inr rs => rs.2.formula) = s.formula := by
  cases pc with
  | b2 d =>
    by_cases hd : d < n
    · simp only [step, if_pos hd]
    · simp only [step, if_neg hd]
  | b3 d l j =>
    by_cases hj : j < m
    · simp only [step, if_pos hj]
      cases hscan : scanRepl s.literals s.move d
          (s.start.getD (j + 1) 0 - (s.start.getD j 0 + 1)) (s.start.getD j 0 + 1) with
      | some k => simp [hscan]
      | none =>
        simp only [hscan]
        cases hbj : backjump s.move d with
        | none => simp [hbj]
        | some e => simp [hbj]
    · simp only [step, if_neg hj]

theorem run_frame (m n : Nat) : ∀ fuel (s : St) (pc : PC) (r : Res) (sE : St),
    run m n fuel s pc = some (r, sE) → sE.formula = s.formula := by
  intro fuel
  induction fuel with
  | zero =>
    intro s pc r sE h
    cases h
  | succ fuel ih =>
    intro s pc r sE h
    cases hst : step m n s pc with
    | inl sp =>
      have h2 : run m n fuel sp.1 sp.2 = some (r, sE) := by
        rw [← run_succ_inl (show step m n s pc = .inl (sp.1, sp.2) by rw [hst])]
        exact h
      have hf : sp.1.formula = s.formula := by
        have h3 := step_formula (m := m) (n := n) s pc
        rw [hst] at h3
        exact h3
      rw [ih sp.1 sp.2 r sE h2, hf]
    | inr rs =>
      have h2 : some (rs.1, rs.2) = some (r, sE) := by
        rw [← run_succ_inr (show step m n s pc = .inr (rs.1, rs.2) by rw [hst])]
        exact h
      have hf : rs.2.formula = s.formula := by
        have h3 := step_formula (m := m) (n := n) s pc
        rw [hst] at h3
        exact h3
      injection h2 with h3
      have h4 : rs.2 = sE := congrArg Prod.snd h3
      rw [← h4, hf]

/-- C10.  The solver does not modify its input formula: the `formula`
component of the machine state is never written by any step of the
search, so the state in which the search returns carries the input
formula unchanged; and the freshly built store of `initSt` keeps the
given formula as is (all mutation happens in the `literals`/`start`/
`watch`/`next`/`move` components). -/
theorem run_preserves_formula (m n fuel : Nat) (s : St) (pc : PC) (r : Res) (sE : St)
    (h : run m n fuel s pc = some (r, sE)) :
    sE.formula = s.formula ∧ ∀ (F : List (List Int)) (nv : Nat), (initSt F nv).formula = F :=
  ⟨run_frame m n fuel s pc r sE h, fun _ _ => rfl⟩

/-- Witness for C10 at a one-step terminal run. -/
theorem run_preserves_formula_witness :
    (⟨[[5]], [], [], [], [], []⟩ : St).formula = (⟨[[5]], [], [], [], [], []⟩ : St).formula ∧
      ∀ (F : List (List Int)) (nv : Nat), (initSt F nv).formula = F :=
  run_preserves_formula 0 0 1 (⟨[[5]], [], [], [], [], []⟩ : St) (.b2 0) (.sat [])
    (⟨[[5]], [], [], [], [], []⟩ : St) rfl

/-! ### The binomial encoder: loop-state machinery (claim C7) -/

theorem intV_length (v : List Nat) : (intV v).length = v.length := by
  simp [intV]

theorem intV_getD (v : List Nat) (i : Nat) :
    (intV v).getD i 0 = ((v.getD i 0 : Nat) : Int) := by
  unfold intV
  by_cases h : i < v.length
  · rw [List.getD_eq_getElem _ _ (by simpa using h), List.getD_eq_getElem _ _ h]
    simp
  · rw [getD_oob _ _ _ (by simpa using not_lt.mp h), getD_oob _ _ _ (not_lt.mp h)]
    simp

theorem intV_append (a b : List Nat) : intV (a ++ b) = intV a ++ intV b := by
  simp [intV]

theorem emitC_intV (arr : List Int) (sign : Int) (w : List Nat) (k : Nat)
    (hlen : w.length = k) :
    emitC arr sign (intV w) k = w.map fun idx => arr.getD idx 0 * sign := by
  unfold emitC
  apply List.ext_getElem
  · simp [hlen]
  · intro i h1 h2
    simp only [List.getElem_map, List.getElem_range]
    have hi : i < w.length := by simpa using h2
    rw [intV_getD, List.getD_eq_getElem _ _ hi]
    simp

theorem fillC_spec : ∀ (r : Nat) (c : List Int) (pos : Nat), 1 ≤ pos → pos + r ≤ c.length →
    fillC c pos r =
      c.take pos ++ (List.range' 1 r).map (fun s : Nat => c.getD (pos - 1) 0 + (s : Int))
        ++ c.drop (pos + r) := by
  intro r
  induction r with
  | zero =>
    intro c pos h1 h2
    simp [fillC]
  | succ r ih =>
    intro c pos h1 h2
    have hpl : pos < c.length := by omega
    unfold fillC
    rw [ih (c.set pos (c.getD (pos - 1) 0 + 1)) (pos + 1) (by omega)
      (by rw [List.length_set]; omega)]
    have hget : (c.set pos (c.getD (pos - 1) 0 + 1)).getD (pos + 1 - 1) 0
        = c.getD (pos - 1) 0 + 1 := by
      simpa using getD_set_lt c pos _ 0 hpl
    rw [hget]
    have hsete : c.set pos (c.getD (pos - 1) 0 + 1)
        = c.take pos ++ (c.getD (pos - 1) 0 + 1) :: c.drop (pos + 1) := by
      rw [List.set_eq_take_append_cons_drop, if_pos hpl]
    rw [hsete]
    have hlt : (c.take pos).length = pos := by
      rw [List.length_take]
      omega
    have htake : (c.take pos ++ (c.getD (pos - 1) 0 + 1) :: c.drop (pos + 1)).take (pos + 1)
        = c.take pos ++ [c.getD (pos - 1) 0 + 1] := by
      rw [List.take_append_eq_append_take, List.take_of_length_le (by rw [hlt]; omega), hlt]
      rw [show pos + 1 - pos = 1 by omega]
      rfl
    have hdrop : (c.take pos ++ (c.getD (pos - 1) 0 + 1) :: c.drop (pos + 1)).drop (pos + 1 + r)
        = c.drop (pos + (r + 1)) := by
      rw [List.drop_append_eq_append_drop, List.drop_eq_nil_of_le (by rw [hlt]; omega), hlt]
      rw [show pos + 1 + r - pos = r + 1 by omega]
      simp only [List.nil_append, List.drop_succ_cons]
      rw [List.drop_drop]
      congr 1
      omega
    rw [htake, hdrop]
    have hmid : (List.range' 1 r).map (fun s : Nat => c.getD (pos - 1) 0 + 1 + (s : Int))
        = (List.range' 2 r).map (fun s : Nat => c.getD (pos - 1) 0 + (s : Int)) := by
      rw [List.range'_eq_map_range, List.range'_eq_map_range, List.map_map, List.map_map]
      apply List.map_congr_left
      intro t _
      simp only [Function.comp]
      push_cast
      ring
    rw [hmid, List.range'_succ, List.map_cons]
    have hone : c.getD (pos - 1) 0 + ((1 : Nat) : Int) = c.getD (pos - 1) 0 + 1 := by
      simp
    rw [hone]
    simp [List.append_assoc]

theorem backC_intV {n k : Nat} {v : List Nat} {j : Nat} (hj : j < k)
    (hmax : ∀ t, j < t → t < k → v.getD t 0 = n + t - k)
    (hne : v.getD j 0 ≠ n + j - k) (hkn : k ≤ n) :
    backC (intV v) n k k = (j : Int) := by
  have key : ∀ u, j + 1 ≤ u → u ≤ k → backC (intV v) n k u = (j : Int) := by
    intro u
    induction u with
    | zero => intro h1 h2; omega
    | succ u2 ihu =>
      intro h1 h2
      unfold backC
      by_cases hu : u2 = j
      · subst hu
        rw [if_neg (by rw [intV_getD]; omega)]
      · have hj2 : j < u2 := by omega
        have hm := hmax u2 hj2 (by omega)
        rw [if_pos (by rw [intV_getD]; omega)]
        exact ihu (by omega) (by omega)
  exact key k (by omega) le_rfl

theorem intV_range' (a r : Nat) :
    intV (List.range' a r) = (List.range r).map (fun t : Nat => (a : Int) + (t : Int)) := by
  unfold intV
  rw [List.range'_eq_map_range, List.map_map]
  apply List.map_congr_left
  intro t _
  simp only [Function.comp]
  push_cast
  ring

theorem range'_one_map (m : Nat) (f : Nat → Int) :
    (List.range' 1 m).map f = (List.range m).map (fun t => f (1 + t)) := by
  rw [List.range'_eq_map_range, List.map_map]
  rfl

theorem fill_next {n k : Nat} {v : List Nat} {j : Nat} (hj : j < k)
    (hvlen : v.length = k) :
    fillC ((intV v).set j ((intV v).getD j 0 + 1)) (j + 1) (k - (j + 1)) =
      intV (v.take j ++ List.range' (v.getD j 0 + 1) (k - j)) := by
  have hlen : ((intV v).set j ((intV v).getD j 0 + 1)).length = k := by
    rw [List.length_set, intV_length, hvlen]
  have hjl : j < (intV v).length := by rw [intV_length, hvlen]; exact hj
  rw [fillC_spec (k - (j + 1)) _ (j + 1) (by omega) (by rw [hlen]; omega)]
  have hget : ((intV v).set j ((intV v).getD j 0 + 1)).getD (j + 1 - 1) 0
      = (intV v).getD j 0 + 1 := by
    simpa using getD_set_lt (intV v) j _ 0 hjl
  rw [hget]
  have hdrop : ((intV v).set j ((intV v).getD j 0 + 1)).drop (j + 1 + (k - (j + 1))) = [] := by
    apply List.drop_eq_nil_of_le
    rw [hlen]
    omega
  rw [hdrop]
  have htake : ((intV v).set j ((intV v).getD j 0 + 1)).take (j + 1)
      = (intV v).take j ++ [(intV v).getD j 0 + 1] := by
    rw [List.set_eq_take_append_cons_drop, if_pos hjl]
    have hlt : ((intV v).take j).length = j := by
      rw [List.length_take]
      omega
    rw [List.take_append_eq_append_take, List.take_of_length_le (by rw [hlt]; omega), hlt]
    rw [show j + 1 - j = 1 by omega]
    rfl
  rw [htake]
  rw [intV_append]
  have htk : intV (v.take j) = (intV v).take j := by
    simp [intV, List.map_take]
  rw [htk]
  rw [intV_range', range'_one_map]
  rw [intV_getD]
  rw [show k - j = (k - (j + 1)) + 1 by omega, List.range_succ_eq_map]
  rw [List.map_cons, List.map_map]
  simp only [List.append_assoc, List.append_nil, List.cons_append, List.nil_append,
    List.singleton_append]
  congr 1
  congr 1
  apply List.map_congr_left
  intro t _
  simp only [Function.comp]
  push_cast
  ring

theorem combLoop_emits (arr : List Int) (sign : Int) (n k : Nat) :
    ∀ (vs : List (List Nat)) (c : List Int) (i : Int) (f : Nat),
      StateOK n k c i vs → (∀ w ∈ vs, w.length = k) → vs.length < f →
      combLoop arr sign n k f c i =
        vs.map fun v => v.map fun idx => arr.getD idx 0 * sign := by
  intro vs
  induction vs with
  | nil =>
    intro c i f hok _ hf
    obtain ⟨f2, rfl⟩ : ∃ f2, f = f2 + 1 := ⟨f - 1, by omega⟩
    have hstop : c.getD 0 0 = (n : Int) - (k : Int) := hok
    simp only [combLoop]
    rw [if_pos hstop]
    rfl
  | cons w vs ih =>
    intro c i f hok hlen hf
    obtain ⟨hne, hfill, hok2⟩ := hok
    obtain ⟨f2, rfl⟩ : ∃ f2, f = f2 + 1 := ⟨f - 1, by omega⟩
    simp only [combLoop]
    rw [if_neg hne, hfill]
    rw [List.map_cons]
    congr 1
    · exact emitC_intV arr sign w k (hlen w (by simp))
    · exact ih (intV w) (backC (intV w) n k k) f2 hok2
        (fun u hu => hlen u (by simp [hu])) (by simp at hf; omega)

/-! ### Properties of the specification-side enumeration `combsFrom` -/

theorem range'_getD {s m i : Nat} (h : i < m) : (List.range' s m).getD i 0 = s + i := by
  rw [List.getD_eq_getElem _ _ (by simpa using h)]
  simp

theorem combsFrom_nil_of_ge {n k lo : Nat} (h : n ≤ lo) : combsFrom n (k + 1) lo = [] := by
  unfold combsFrom
  rw [show n - lo = 0 by omega]
  rfl

theorem combsFrom_decomp {n k lo : Nat} (h : lo < n) :
    combsFrom n (k + 1) lo =
      ((combsFrom n k (lo + 1)).map (lo :: ·)) ++ combsFrom n (k + 1) (lo + 1) := by
  conv_lhs => rw [combsFrom]
  rw [show n - lo = (n - lo - 1) + 1 by omega, List.range'_succ, List.flatMap_cons]
  congr 1

theorem combsFrom_length {n : Nat} : ∀ k (u lo : Nat), n - lo ≤ u →
    (combsFrom n k lo).length = Nat.choose (n - lo) k := by
  intro k
  induction k with
  | zero =>
    intro u lo _
    simp [combsFrom]
  | succ k ihk =>
    intro u
    induction u with
    | zero =>
      intro lo hlo
      rw [combsFrom_nil_of_ge (by omega), show n - lo = 0 by omega]
      rfl
    | succ u ihu =>
      intro lo hlo
      by_cases hn : n ≤ lo
      · rw [combsFrom_nil_of_ge hn, show n - lo = 0 by omega]
        rfl
      · push_neg at hn
        rw [combsFrom_decomp hn]
        rw [List.length_append, List.length_map]
        rw [ihk u (lo + 1) (by omega), ihu (lo + 1) (by omega)]
        rw [show n - lo = (n - (lo + 1)) + 1 by omega]
        rw [Nat.choose_succ_succ]

theorem combsFrom_mem {n : Nat} : ∀ k lo xs, xs ∈ combsFrom n k lo ↔
    (xs.length = k ∧ xs.Pairwise (· < ·) ∧ ∀ x ∈ xs, lo ≤ x ∧ x < n) := by
  intro k
  induction k with
  | zero =>
    intro lo xs
    unfold combsFrom
    simp only [List.mem_singleton]
    constructor
    · rintro rfl
      exact ⟨rfl, List.Pairwise.nil, by simp⟩
    · rintro ⟨hlen, _, _⟩
      exact List.eq_nil_of_length_eq_zero hlen
  | succ k ih =>
    intro lo xs
    constructor
    · intro hmem
      unfold combsFrom at hmem
      rw [List.mem_flatMap] at hmem
      obtain ⟨x, hx, hxs⟩ := hmem
      rw [List.mem_map] at hxs
      obtain ⟨ys, hys, rfl⟩ := hxs
      have hxr := List.mem_range'_1.mp hx
      obtain ⟨hlen, hpw, hbnd⟩ := (ih (x + 1) ys).mp hys
      refine ⟨by simp [hlen], ?_, ?_⟩
      · rw [List.pairwise_cons]
        exact ⟨fun y hy => by have := hbnd y hy; omega, hpw⟩
      · intro z hz
        rcases List.mem_cons.mp hz with rfl | hz2
        · exact ⟨hxr.1, by omega⟩
        · have := hbnd z hz2
          exact ⟨by omega, by omega⟩
    · rintro ⟨hlen, hpw, hbnd⟩
      obtain ⟨x, ys, rfl⟩ : ∃ x ys, xs = x :: ys := by
        cases xs with
        | nil => simp at hlen
        | cons a b => exact ⟨a, b, rfl⟩
      unfold combsFrom
      rw [List.mem_flatMap]
      refine ⟨x, ?_, ?_⟩
      · rw [List.mem_range'_1]
        have := hbnd x (by simp)
        exact ⟨this.1, by omega⟩
      · rw [List.mem_map]
        refine ⟨ys, ?_, rfl⟩
        apply (ih (x + 1) ys).mpr
        rw [List.pairwise_cons] at hpw
        refine ⟨by simpa using hlen, hpw.2, ?_⟩
        intro z hz
        have h1 := hpw.1 z hz
        have h2 := hbnd z (by simp [hz])
        exact ⟨by omega, h2.2⟩

theorem combsFrom_head {n : Nat} : ∀ k lo, k ≤ n - lo →
    (combsFrom n k lo).head? = some (List.range' lo k) := by
  intro k
  induction k with
  | zero => intro lo _; rfl
  | succ k ih =>
    intro lo h
    have hlo : lo < n := by omega
    rw [combsFrom_decomp hlo]
    have hinner := ih (lo + 1) (by omega)
    obtain ⟨z, zs, hz⟩ : ∃ z zs, combsFrom n k (lo + 1) = z :: zs := by
      cases hc : combsFrom n k (lo + 1) with
      | nil => rw [hc] at hinner; simp at hinner
      | cons z zs => exact ⟨z, zs, rfl⟩
    rw [hz]
    have hzval : z = List.range' (lo + 1) k := by
      rw [hz] at hinner
      simpa using hinner
    simp only [List.map_cons, List.cons_append, List.head?_cons]
    rw [hzval, List.range'_succ]

theorem combsFrom_getLast {n : Nat} : ∀ k (u lo : Nat), n - lo ≤ u → k ≤ n - lo →
    (combsFrom n k lo).getLast? = some (List.range' (n - k) k) := by
  intro k
  induction k with
  | zero =>
    intro u lo _ _
    rfl
  | succ k ihk =>
    intro u
    induction u with
    | zero => intro lo h1 h2; omega
    | succ u ihu =>
      intro lo h1 h2
      have hlo : lo < n := by omega
      rw [combsFrom_decomp hlo]
      by_cases hrest : k + 1 ≤ n - (lo + 1)
      · have hrlen := combsFrom_length (n := n) (k + 1) u (lo + 1) (by omega)
        have hrne : combsFrom n (k + 1) (lo + 1) ≠ [] := by
          intro hcon
          rw [hcon] at hrlen
          have := Nat.choose_pos hrest
          simp at hrlen
          omega
        rw [List.getLast?_append_of_ne_nil _ hrne]
        exact ihu (lo + 1) (by omega) hrest
      · have hempty : combsFrom n (k + 1) (lo + 1) = [] := by
          have hl := combsFrom_length (n := n) (k + 1) u (lo + 1) (by omega)
          rw [Nat.choose_eq_zero_of_lt (by omega)] at hl
          exact List.eq_nil_of_length_eq_zero hl
        rw [hempty, List.append_nil]
        rw [List.getLast?_map]
        rw [ihk u (lo + 1) (by omega) (by omega)]
        rw [show n - k = lo + 1 by omega, show n - (k + 1) = lo by omega, List.range'_succ]
        rfl

theorem lexLt_cons_same (x : Nat) (a b : List Nat) : lexLt (x :: a) (x :: b) = lexLt a b := by
  simp [lexLt]

theorem lexLt_cons_lt {x y : Nat} (h : x < y) (a b : List Nat) :
    lexLt (x :: a) (y :: b) = true := by
  simp [lexLt, h]

theorem combsFrom_pairwise {n : Nat} : ∀ k (u lo : Nat), n - lo ≤ u →
    (combsFrom n k lo).Pairwise fun a b => lexLt a b = true := by
  intro k
  induction k with
  | zero => intro u lo _; simp [combsFrom]
  | succ k ihk =>
    intro u
    induction u with
    | zero =>
      intro lo hlo
      by_cases hn : n ≤ lo
      · rw [combsFrom_nil_of_ge hn]
        exact List.Pairwise.nil
      · omega
    | succ u ihu =>
      intro lo hlo
      by_cases hn : n ≤ lo
      · rw [combsFrom_nil_of_ge hn]
        exact List.Pairwise.nil
      · push_neg at hn
        rw [combsFrom_decomp hn]
        rw [List.pairwise_append]
        refine ⟨?_, ihu (lo + 1) (by omega), ?_⟩
        · rw [List.pairwise_map]
          apply List.Pairwise.imp ?_ (ihk u (lo + 1) (by omega))
          intro a b hab
          rw [lexLt_cons_same]
          exact hab
        · intro a ha b hb
          obtain ⟨a2, ha2, rfl⟩ := List.mem_map.mp ha
          obtain ⟨x2, b2, rfl⟩ : ∃ x2 b2, b = x2 :: b2 := by
            obtain ⟨hlenb, _, _⟩ := (combsFrom_mem (k + 1) (lo + 1) b).mp hb
            cases b with
            | nil => simp at hlenb
            | cons p q => exact ⟨p, q, rfl⟩
          have hx2 := (((combsFrom_mem (k + 1) (lo + 1) _).mp hb).2.2 x2 (by simp)).1
          exact lexLt_cons_lt (by omega) _ _

theorem nextOf_cons {n k : Nat} {v w : List Nat} (x : Nat) (h : nextOf n k v w) :
    nextOf n (k + 1) (x :: v) (x :: w) := by
  obtain ⟨j, hj, hmax, hne, hw⟩ := h
  refine ⟨j + 1, by omega, ?_, ?_, ?_⟩
  · intro t h1 h2
    obtain ⟨t2, rfl⟩ : ∃ t2, t = t2 + 1 := ⟨t - 1, by omega⟩
    simp only [List.getD_cons_succ]
    rw [hmax t2 (by omega) (by omega)]
    omega
  · simp only [List.getD_cons_succ]
    intro hcon
    apply hne
    omega
  · rw [hw]
    simp only [List.take_succ_cons, List.getD_cons_succ, List.cons_append,
      show k + 1 - (j + 1) = k - j by omega]

theorem combsFrom_chain {n : Nat} : ∀ k (u lo : Nat), n - lo ≤ u →
    List.Chain' (nextOf n k) (combsFrom n k lo) := by
  intro k
  induction k with
  | zero => intro u lo _; simp [combsFrom]
  | succ k ihk =>
    intro u
    induction u with
    | zero =>
      intro lo hlo
      by_cases hn : n ≤ lo
      · rw [combsFrom_nil_of_ge hn]
        exact List.chain'_nil
      · omega
    | succ u ihu =>
      intro lo hlo
      by_cases hn : n ≤ lo
      · rw [combsFrom_nil_of_ge hn]
        exact List.chain'_nil
      · push_neg at hn
        rw [combsFrom_decomp hn]
        rw [List.chain'_append]
        refine ⟨?_, ihu (lo + 1) (by omega), ?_⟩
        · rw [List.chain'_map]
          apply List.Chain'.imp ?_ (ihk u (lo + 1) (by omega))
          intro a b hab
          exact nextOf_cons lo hab
        · intro a ha b hb
          have hbne : combsFrom n (k + 1) (lo + 1) ≠ [] := by
            intro hcon
            rw [hcon] at hb
            simp at hb
          have hfeas : k + 1 ≤ n - (lo + 1) := by
            by_contra hcon
            apply hbne
            have hl := combsFrom_length (n := n) (k + 1) u (lo + 1) (by omega)
            rw [Nat.choose_eq_zero_of_lt (by omega)] at hl
            exact List.eq_nil_of_length_eq_zero hl
          have hbv : b = List.range' (lo + 1) (k + 1) := by
            have hh := combsFrom_head (n := n) (k + 1) (lo + 1) hfeas
            rw [hh] at hb
            exact (by simpa using hb : _ = b).symm
          have hav : a = lo :: List.range' (n - k) k := by
            have hlast := combsFrom_getLast (n := n) k u (lo + 1) (by omega) (by omega)
            have hm : ((combsFrom n k (lo + 1)).map (lo :: ·)).getLast?
                = some (lo :: List.range' (n - k) k) := by
              rw [List.getLast?_map, hlast]
              rfl
            rw [hm] at ha
            exact (by simpa using ha : _ = a).symm
          rw [hav, hbv]
          refine ⟨0, by omega, ?_, ?_, ?_⟩
          · intro t h1 h2
            obtain ⟨t2, rfl⟩ : ∃ t2, t = t2 + 1 := ⟨t - 1, by omega⟩
            simp only [List.getD_cons_succ]
            rw [range'_getD (by omega)]
            omega
          · simp only [List.getD_cons_zero]
            omega
          · simp only [List.getD_cons_zero, List.take_zero, List.nil_append]
            rw [show k + 1 - 0 = k + 1 by omega]

/-! ### Assembling the loop invariant and the encoder claim -/

theorem sorted_getD_add {v : List Nat} (hs : v.Pairwise (· < ·)) :
    ∀ d s, s + d < v.length → v.getD s 0 + d ≤ v.getD (s + d) 0 := by
  intro d
  induction d with
  | zero => intro s h; simp
  | succ d ihd =>
    intro s h
    have h1 := ihd s (by omega)
    have h2 : v.getD (s + d) 0 < v.getD (s + d + 1) 0 := by
      rw [List.getD_eq_getElem _ _ (by omega : s + d < v.length),
        List.getD_eq_getElem _ _ (by omega : s + d + 1 < v.length)]
      exact List.pairwise_iff_getElem.mp hs (s + d) (s + d + 1) (by omega) (by omega) (by omega)
    have h3 : s + (d + 1) = s + d + 1 := by omega
    rw [h3]
    omega

theorem stateOK_of_chain {n k : Nat} (hk1 : 1 ≤ k) (hkn : k ≤ n) :
    ∀ (vs : List (List Nat)) (v : List Nat),
      List.Chain' (nextOf n k) (v :: vs) →
      (∀ u ∈ v :: vs, u.length = k ∧ u.Pairwise (· < ·) ∧ ∀ x ∈ u, x < n) →
      (v :: vs).getLast? = some (List.range' (n - k) k) →
      StateOK n k (intV v) (backC (intV v) n k k) vs := by
  intro vs
  induction vs with
  | nil =>
    intro v _ hprops hlast
    have hv : v = List.range' (n - k) k := by simpa using hlast
    show (intV v).getD 0 0 = (n : Int) - (k : Int)
    rw [hv, intV_getD, range'_getD (by omega)]
    omega
  | cons w vs ih =>
    intro v hchain hprops hlast
    have hnext : nextOf n k v w := (List.chain'_cons.mp hchain).1
    have hchain2 : List.Chain' (nextOf n k) (w :: vs) := (List.chain'_cons.mp hchain).2
    obtain ⟨j, hj, hmax, hne, hw⟩ := hnext
    obtain ⟨hvlen, hvsort, hvbnd⟩ := hprops v (by simp)
    have hback : backC (intV v) n k k = (j : Int) := backC_intV hj hmax hne hkn
    refine ⟨?_, ?_, ?_⟩
    · intro hcon
      have h0 : v.getD 0 0 = n - k := by
        rw [intV_getD] at hcon
        omega
      have hlow : v.getD 0 0 + j ≤ v.getD j 0 := by
        have := sorted_getD_add hvsort j 0 (by omega)
        simpa using this
      have hhigh : v.getD j 0 + (k - 1 - j) ≤ v.getD (k - 1) 0 := by
        rcases Nat.eq_or_lt_of_le (by omega : j ≤ k - 1) with he | hlt
        · rw [← he]
          simp
        · have := sorted_getD_add hvsort (k - 1 - j) j (by omega)
          rw [show j + (k - 1 - j) = k - 1 by omega] at this
          exact this
      have hbk : v.getD (k - 1) 0 < n := by
        apply (hvbnd _ ?_)
        rw [List.getD_eq_getElem _ _ (by omega : k - 1 < v.length)]
        exact List.getElem_mem _
      apply hne
      omega
    · rw [hback, Int.toNat_natCast, hw]
      exact fill_next (n := n) hj hvlen
    · apply ih w hchain2 (fun u hu => hprops u (by simp [hu]))
      rw [List.getLast?_cons_cons] at hlast
      exact hlast

theorem stateOK_init {n k : Nat} (hk : 1 ≤ k) (hkn : k ≤ n) :
    StateOK n k ((List.replicate k 0).set 0 (-1)) 0 (combsFrom n k 0) := by
  have hne : combsFrom n k 0 ≠ [] := by
    intro hcon
    have hl := combsFrom_length (n := n) k n 0 (by omega)
    rw [hcon] at hl
    simp only [List.length_nil] at hl
    have := Nat.choose_pos (by omega : k ≤ n - 0)
    omega
  obtain ⟨v0, rest, hv0⟩ : ∃ v0 rest, combsFrom n k 0 = v0 :: rest := by
    cases hc : combsFrom n k 0 with
    | nil => exact absurd hc hne
    | cons a b => exact ⟨a, b, rfl⟩
  have hhead : v0 = List.range' 0 k := by
    have hh := combsFrom_head (n := n) k 0 (by omega)
    rw [hv0] at hh
    simpa using hh
  rw [hv0]
  have hget0 : ((List.replicate k 0).set 0 (-1 : Int)).getD 0 0 = -1 := by
    apply getD_set_lt
    simp
    omega
  refine ⟨?_, ?_, ?_⟩
  · rw [hget0]
    intro hcon
    omega
  · simp only [Int.toNat_zero, Nat.zero_add]
    rw [hget0]
    have hset2 : (((List.replicate k 0).set 0 (-1 : Int)).set 0 (-1 + 1))
        = List.replicate k (0 : Int) := by
      rw [List.set_set]
      show (List.replicate k (0 : Int)).set 0 0 = List.replicate k 0
      obtain ⟨k2, rfl⟩ : ∃ k2, k = k2 + 1 := ⟨k - 1, by omega⟩
      rw [List.replicate_succ]
      rfl
    rw [hset2]
    rw [fillC_spec (k - 1) _ 1 (by omega) (by simp; omega)]
    rw [hhead, intV_range', range'_one_map]
    have hgetr : (List.replicate k (0 : Int)).getD (1 - 1) 0 = 0 :=
      getD_replicate _ _ (by omega)
    rw [hgetr]
    have htake : (List.replicate k (0 : Int)).take 1 = [0] := by
      obtain ⟨k2, rfl⟩ : ∃ k2, k = k2 + 1 := ⟨k - 1, by omega⟩
      rw [List.replicate_succ]
      rfl
    rw [htake]
    have hdrop : (List.replicate k (0 : Int)).drop (1 + (k - 1)) = [] := by
      apply List.drop_eq_nil_of_le
      simp
      omega
    rw [hdrop]
    rw [show k = (k - 1) + 1 by omega, List.range_succ_eq_map]
    rw [List.map_cons, List.map_map]
    simp only [List.append_assoc, List.append_nil, List.cons_append, List.nil_append,
      List.singleton_append]
    refine congrArg₂ (· :: ·) ?_ ?_
    · simp
    · apply List.map_congr_left
      intro t _
      simp only [Function.comp]
      push_cast
      ring
  · apply stateOK_of_chain hk hkn rest v0
    · have := combsFrom_chain (n := n) k n 0 (by omega)
      rw [hv0] at this
      exact this
    · intro u hu
      rw [← hv0] at hu
      obtain ⟨a, b, c⟩ := (combsFrom_mem k 0 u).mp hu
      exact ⟨a, b, fun x hx => (c x hx).2⟩
    · have := combsFrom_getLast (n := n) k n 0 (by omega) (by omega)
      rw [hv0] at this
      exact this

theorem combinations_eq_pos {k : Nat} (arr : List Int) (sign : Int)
    (hk : 1 ≤ k) (hkn : k ≤ arr.length) :
    combinations (k : Int) arr sign =
      (combsFrom arr.length k 0).map fun v => v.map fun idx => arr.getD idx 0 * sign := by
  simp only [combinations]
  rw [if_pos ⟨by exact_mod_cast hk, by exact_mod_cast hkn⟩]
  rw [Int.toNat_natCast]
  apply combLoop_emits
  · exact stateOK_init hk hkn
  · intro w hw
    exact ((combsFrom_mem k 0 w).mp hw).1
  · rw [combsFrom_length (n := arr.length) k arr.length 0 (by omega)]
    rw [Nat.sub_zero]
    omega

theorem combinations_eq_nil (k : Int) (arr : List Int) (sign : Int)
    (h : ¬ (1 ≤ k ∧ k ≤ (arr.length : Int))) :
    combinations k arr sign = [] := by
  simp only [combinations]
  rw [if_neg h]

/-- C7.  The binomial at-most-k encoder: for `0 ≤ k < n` (with `n` the
number of literals), `at_most k Ls` is exactly the list of the
`C(n, k+1)` clauses obtained by negating (`* -1`) the literals of each
`(k+1)`-subset of `Ls`, indexed by the strictly increasing index vectors
of `combsFrom` and emitted in lexicographic order (`lexLt`); for
`k ≥ n` or `k < 0` no clauses are produced. -/
theorem at_most_spec (k : Int) (Ls : List Int) :
    (0 ≤ k → k < (Ls.length : Int) →
      at_most k Ls =
        (combsFrom Ls.length (k.toNat + 1) 0).map
          (fun ix => ix.map fun i => Ls.getD i 0 * (-1)) ∧
      (at_most k Ls).length = Nat.choose Ls.length (k.toNat + 1) ∧
      (combsFrom Ls.length (k.toNat + 1) 0).Pairwise (fun a b => lexLt a b = true) ∧
      (∀ ix, ix ∈ combsFrom Ls.length (k.toNat + 1) 0 ↔
        (ix.length = k.toNat + 1 ∧ ix.Pairwise (· < ·) ∧ ∀ x ∈ ix, x < Ls.length))) ∧
    (((Ls.length : Int) ≤ k ∨ k < 0) → at_most k Ls = []) := by
  constructor
  · intro hk0 hkn
    have hcast : k + 1 = ((k.toNat + 1 : Nat) : Int) := by omega
    have h1 : at_most k Ls =
        (combsFrom Ls.length (k.toNat + 1) 0).map
          (fun ix => ix.map fun i => Ls.getD i 0 * (-1)) := by
      unfold at_most
      rw [hcast]
      exact combinations_eq_pos Ls (-1) (by omega) (by omega)
    refine ⟨h1, ?_, ?_, ?_⟩
    · rw [h1, List.length_map]
      have hlc := combsFrom_length (n := Ls.length) (k.toNat + 1) Ls.length 0 (by omega)
      rw [Nat.sub_zero] at hlc
      exact hlc
    · exact combsFrom_pairwise (n := Ls.length) (k.toNat + 1) Ls.length 0 (by omega)
    · intro ix
      rw [combsFrom_mem]
      constructor
      · rintro ⟨a, b, c⟩
        exact ⟨a, b, fun x hx => (c x hx).2⟩
      · rintro ⟨a, b, c⟩
        exact ⟨a, b, fun x hx => ⟨Nat.zero_le x, c x hx⟩⟩
  · intro hk
    unfold at_most
    apply combinations_eq_nil
    rintro ⟨hc1, hc2⟩
    rcases hk with h | h
    · omega
    · omega

/-- Witness for C7 at `k = 1` on three literals, with the two empty
cases `k = 3` and `k = -1`. -/
theorem at_most_spec_witness :
    at_most 1 [(1 : Int), 2, 3] =
        (combsFrom 3 2 0).map (fun ix => ix.map fun i => ([(1 : Int), 2, 3].getD i 0) * (-1)) ∧
      (at_most 1 [(1 : Int), 2, 3]).length = Nat.choose 3 2 ∧
      at_most 3 [(1 : Int), 2, 3] = [] ∧
      at_most (-1) [(1 : Int), 2, 3] = [] :=
  ⟨((at_most_spec 1 [(1 : Int), 2, 3]).1 (by decide) (by decide)).1,
   ((at_most_spec 1 [(1 : Int), 2, 3]).1 (by decide) (by decide)).2.1,
   (at_most_spec 3 [(1 : Int), 2, 3]).2 (by decide),
   (at_most_spec (-1) [(1 : Int), 2, 3]).2 (by decide)⟩

end SatMjs
